import Mathlib

/-!
Transfer cache index, HTTP name lookup, sparse byte ranges and the resource
priority order.

A shallow embedding of `CacheMap.hpp` (the reader/writer-locked index from
fingerprint to per-entry payload and policy bookkeeping), of
`HTTPDownloadHandler::nameCallback`, of the comparison functor of
`GraphicsResourceManager.hpp`, of `GraphicsResourceName::hashLookupCallback`
and of the callbacks of `TransferTest.hpp`,
followed by the properties proved about them.  The sparse data, the ranges
and the memory layer that the tests exercise are not among the sources; they
are modelled from the specification, each such definition saying so.

Modelling conventions.

* `std::map<Fingerprint, MapEntry>` is a list of `(key, entry)` pairs kept in
  strictly ascending key order (`MapClass.WF`).  An iterator of the map is the
  position of its node in that order; `end()` is the number of entries.
* The policy and the owning layer are objects behind a pointer: they are a
  state (`P`, `O`) together with the operations of their interface.  Every
  call made on them is also appended to `CacheMap.calls`, in call order.
* Dereferencing `end()` is undefined behaviour in the source; operations that
  do so return `none`.
* A `SparseData` is the list of its fragments in order; a null pointer handed
  to a callback is `none`.
-/

namespace Transfer

/-- The 32-byte digest, read as a big-endian number: the numeric order is the
byte-lexicographic order of the digest, and `0` is the all-zero (default
constructed) fingerprint. -/
abbrev Fingerprint := Nat

/-- The source declares `typedef void *CacheInfo`: an opaque address. -/
abbrev CacheInfo := Nat

/-- The source declares `typedef CachePolicy::Data PolicyData`; the value is
opaque to the map.  `PolicyData()` is `0`. -/
abbrev PolicyData := Nat

/-- The source declares `typedef std::pair<CacheInfo, PolicyData> MapEntry`. -/
abbrev MapEntry := CacheInfo × PolicyData

/-- The source declares `typedef std::map<Fingerprint, MapEntry> MapClass`. -/
abbrev MapClass := List (Fingerprint × MapEntry)

namespace MapClass

/-- Representation invariant of `std::map`: keys strictly ascending. -/
def WF (m : MapClass) : Prop := m.Pairwise (fun a b => a.1 < b.1)

instance (m : MapClass) : Decidable (WF m) := by
  unfold WF; infer_instance

/-- The keys of the map in iteration order. -/
def keys (m : MapClass) : List Fingerprint := m.map Prod.fst

/-- The iterator `end()`. -/
def endIter (m : MapClass) : Nat := m.length

/-- The iterator `begin()`. -/
def beginIter (_m : MapClass) : Nat := 0

/-- The call `std::map::find`: the position of the entry whose key is `id`,
or `end()` when there is none. -/
def find (m : MapClass) (id : Fingerprint) : Nat :=
  m.findIdx (fun e => e.1 == id)

/-- The call `std::map::insert(value)`: the map after the call, the iterator
to the inserted entry or to the entry that already had the key, and whether an
insertion took place. -/
def insert : MapClass → Fingerprint × MapEntry → MapClass × (Nat × Bool)
  | [], v => ([v], (0, true))
  | e :: es, v =>
    if v.1 < e.1 then (v :: e :: es, (0, true))
    else if v.1 = e.1 then (e :: es, (0, false))
    else ((e :: (insert es v).1), ((insert es v).2.1 + 1, (insert es v).2.2))

/-- The call `std::map::erase(iterator)`. -/
def erase (m : MapClass) (it : Nat) : MapClass := m.eraseIdx it

/-- The assignment `(*it).second.second = d`. -/
def setPolicyInfo : MapClass → Nat → PolicyData → MapClass
  | [], _, _ => []
  | e :: es, 0, d => (e.1, (e.2.1, d)) :: es
  | e :: es, i + 1, d => e :: setPolicyInfo es i d

/-- The entry stored under key `k`, read through `find`. -/
def entry (m : MapClass) (k : Fingerprint) : Option MapEntry :=
  (m.get? (find m k)).map Prod.snd

end MapClass

/-- Modelled from the spec: `CachePolicy.hpp` is not among the sources.  The
operations are those of spec section 4.3 that `CacheMap.hpp` calls, acting on
the internal state `P` of the policy object: `create(id, size)` returns the
per-entry bookkeeping, `destroy(id, policyData)`, `use(id, policyData)` and
`useAndUpdate(id, policyData, newSize)` only change the policy. -/
class CachePolicy (P : Type) where
  create : P → Fingerprint → Nat → PolicyData × P
  destroy : P → Fingerprint → PolicyData → P
  use : P → Fingerprint → PolicyData → P
  useAndUpdate : P → Fingerprint → PolicyData → Nat → P

/-- Modelled from the spec: `CacheLayer.hpp` is not among the sources.  The
hook `destroyCacheEntry(id, cacheinfo)` of spec section 4.5 acts on the state
`O` of the owning layer. -/
class CacheLayer (O : Type) where
  destroyCacheEntry : O → Fingerprint → CacheInfo → O

/-- A call made by the map on its policy or on its owning layer. -/
inductive Event where
  | create (id : Fingerprint) (size : Nat)
  | destroy (id : Fingerprint) (data : PolicyData)
  | destroyCacheEntry (id : Fingerprint) (info : CacheInfo)
  | use (id : Fingerprint) (data : PolicyData)
  | useAndUpdate (id : Fingerprint) (data : PolicyData) (newSize : Nat)
  deriving DecidableEq, Repr

/-- The class `CacheMap`: the map, the objects behind `mOwner` and `mPolicy`,
and the calls made on them so far. -/
structure CacheMap (P O : Type) where
  mMap : MapClass
  mOwner : O
  mPolicy : P
  calls : List Event

/-- The class `CacheMap::read_iterator`.  It holds the map for its lifetime. -/
structure read_iterator (P O : Type) where
  mCachemap : CacheMap P O
  mIter : Nat

/-- The class `CacheMap::write_iterator`.  It holds the map exclusively for its
lifetime, so the map it carries is the map. -/
structure write_iterator (P O : Type) where
  mCachemap : CacheMap P O
  mIter : Nat

namespace read_iterator
variable {P O : Type}

/-- The constructor `read_iterator(CacheMap &m)`: positioned at `end()`. -/
def new (m : CacheMap P O) : read_iterator P O :=
  { mCachemap := m, mIter := m.mMap.endIter }

/-- The conversion `operator bool`. -/
def toBool (r : read_iterator P O) : Bool :=
  r.mIter != r.mCachemap.mMap.endIter

/-- The method `iterate()`: the iterator after the call and the value
returned. -/
def iterate (r : read_iterator P O) : read_iterator P O × Bool :=
  let it := if r.mIter == r.mCachemap.mMap.endIter
    then r.mCachemap.mMap.beginIter else r.mIter + 1
  ({ r with mIter := it }, it != r.mCachemap.mMap.endIter)

/-- The method `find(id)`: the iterator after the call and the value
returned. -/
def find (r : read_iterator P O) (id : Fingerprint) : read_iterator P O × Bool :=
  let r1 : read_iterator P O := { r with mIter := r.mCachemap.mMap.find id }
  (r1, r1.toBool)

/-- The dereference `operator*` (does not check validity). -/
def deref (r : read_iterator P O) : Option CacheInfo :=
  (r.mCachemap.mMap.get? r.mIter).map (fun e => e.2.1)

/-- The method `getId()` (does not check validity). -/
def getId (r : read_iterator P O) : Option Fingerprint :=
  (r.mCachemap.mMap.get? r.mIter).map (fun e => e.1)

/-- The method `getPolicyInfo()` (does not check validity). -/
def getPolicyInfo (r : read_iterator P O) : Option PolicyData :=
  (r.mCachemap.mMap.get? r.mIter).map (fun e => e.2.2)

/-- The method `use()`: `mPolicy->use(getId(), getPolicyInfo())`. -/
def use [CachePolicy P] (r : read_iterator P O) : Option (read_iterator P O) :=
  match r.getId, r.getPolicyInfo with
  | some id, some data =>
    some { r with mCachemap := { r.mCachemap with
      mPolicy := CachePolicy.use r.mCachemap.mPolicy id data
      calls := r.mCachemap.calls ++ [Event.use id data] } }
  | _, _ => none

end read_iterator

namespace write_iterator
variable {P O : Type}

/-- The constructor `write_iterator(CacheMap &m)`: positioned at `end()`. -/
def new (m : CacheMap P O) : write_iterator P O :=
  { mCachemap := m, mIter := m.mMap.endIter }

/-- The conversion `operator bool`. -/
def toBool (w : write_iterator P O) : Bool :=
  w.mIter != w.mCachemap.mMap.endIter

/-- The method `find(id)`: the iterator after the call and the value
returned. -/
def find (w : write_iterator P O) (id : Fingerprint) : write_iterator P O × Bool :=
  let w1 : write_iterator P O := { w with mIter := w.mCachemap.mMap.find id }
  (w1, w1.toBool)

/-- The dereference `operator*` (does not check validity). -/
def deref (w : write_iterator P O) : Option CacheInfo :=
  (w.mCachemap.mMap.get? w.mIter).map (fun e => e.2.1)

/-- The method `getId()` (does not check validity). -/
def getId (w : write_iterator P O) : Option Fingerprint :=
  (w.mCachemap.mMap.get? w.mIter).map (fun e => e.1)

/-- The method `getPolicyInfo()` (does not check validity). -/
def getPolicyInfo (w : write_iterator P O) : Option PolicyData :=
  (w.mCachemap.mMap.get? w.mIter).map (fun e => e.2.2)

/-- The method `use()`: `mPolicy->use(getId(), getPolicyInfo())`. -/
def use [CachePolicy P] (w : write_iterator P O) : Option (write_iterator P O) :=
  match w.getId, w.getPolicyInfo with
  | some id, some data =>
    some { w with mCachemap := { w.mCachemap with
      mPolicy := CachePolicy.use w.mCachemap.mPolicy id data
      calls := w.mCachemap.calls ++ [Event.use id data] } }
  | _, _ => none

/-- The method `update(newSize)`:
`mPolicy->useAndUpdate(getId(), getPolicyInfo(), newSize)`. -/
def update [CachePolicy P] (w : write_iterator P O) (newSize : Nat) :
    Option (write_iterator P O) :=
  match w.getId, w.getPolicyInfo with
  | some id, some data =>
    some { w with mCachemap := { w.mCachemap with
      mPolicy := CachePolicy.useAndUpdate w.mCachemap.mPolicy id data newSize
      calls := w.mCachemap.calls ++ [Event.useAndUpdate id data newSize] } }
  | _, _ => none

/-- The two hook calls that open `erase()` and form the body of the loop of
`eraseAll()`: `mPolicy->destroy(getId(), getPolicyInfo())` and then
`mOwner->destroyCacheEntry(getId(), *this)`. -/
def destroyCurrent [CachePolicy P] [CacheLayer O] (w : write_iterator P O) :
    Option (write_iterator P O) :=
  match w.getId, w.getPolicyInfo, w.deref with
  | some id, some data, some info =>
    some { w with mCachemap := { w.mCachemap with
      mPolicy := CachePolicy.destroy w.mCachemap.mPolicy id data
      mOwner := CacheLayer.destroyCacheEntry w.mCachemap.mOwner id info
      calls := w.mCachemap.calls ++
        [Event.destroy id data, Event.destroyCacheEntry id info] } }
  | _, _, _ => none

/-- The method `erase()`: the two hooks, then `mMap->erase(mIter)` and
`mIter = mMap->end()`. -/
def erase [CachePolicy P] [CacheLayer O] (w : write_iterator P O) :
    Option (write_iterator P O) :=
  match w.destroyCurrent with
  | none => none
  | some w1 =>
    let m := w1.mCachemap.mMap.erase w1.mIter
    some { mCachemap := { w1.mCachemap with mMap := m }, mIter := m.endIter }

/-- The loop of `eraseAll()` from the current position:
`for (; mIter != mMap->end(); ++mIter)` around the two hooks.  Each turn
advances the position by one, so `fuel` bounds the number of turns; the result
is `none` when a turn dereferences `end()`. -/
def eraseAllLoop [CachePolicy P] [CacheLayer O] :
    Nat → write_iterator P O → Option (write_iterator P O)
  | 0, w => some w
  | fuel + 1, w =>
    if w.mIter != w.mCachemap.mMap.endIter then
      match w.destroyCurrent with
      | none => none
      | some w1 => eraseAllLoop fuel { w1 with mIter := w1.mIter + 1 }
    else some w

/-- The method `eraseAll()`: the loop from `begin()`, then `mMap->clear()` and
`mIter = mMap->end()`.  The loop takes one turn per entry. -/
def eraseAll [CachePolicy P] [CacheLayer O] (w : write_iterator P O) :
    Option (write_iterator P O) :=
  match eraseAllLoop w.mCachemap.mMap.length
      { w with mIter := w.mCachemap.mMap.beginIter } with
  | none => none
  | some w1 =>
    if w1.mIter != w1.mCachemap.mMap.endIter then none
    else
      let m : MapClass := []
      some { mCachemap := { w1.mCachemap with mMap := m }, mIter := m.endIter }

/-- The method `insert(id, member, size)`: the iterator after the call and the
value returned. -/
def insert [CachePolicy P] (w : write_iterator P O) (id : Fingerprint)
    (member : CacheInfo) (size : Nat) : write_iterator P O × Bool :=
  let ins := w.mCachemap.mMap.insert (id, ((member, 0) : MapEntry))
  if ins.2.2 then
    let c := CachePolicy.create w.mCachemap.mPolicy id size
    ({ mCachemap := { w.mCachemap with
         mMap := ins.1.setPolicyInfo ins.2.1 c.1
         mPolicy := c.2
         calls := w.mCachemap.calls ++ [Event.create id size] },
       mIter := ins.2.1 }, true)
  else
    ({ mCachemap := { w.mCachemap with mMap := ins.1 }, mIter := ins.2.1 }, false)

end write_iterator

/-! ## Observations on the calls made -/

/-- The calls `eraseAll()` is expected to make for the entries `m`, in order:
for each entry `destroy` and then `destroyCacheEntry`. -/
def destroyCalls : MapClass → List Event
  | [] => []
  | e :: es =>
    Event.destroy e.1 e.2.2 :: Event.destroyCacheEntry e.1 e.2.1 :: destroyCalls es

/-- The policy after `destroy` has been called for the entries `m`, in order. -/
def destroyPolicy {P : Type} [CachePolicy P] (p : P) (m : MapClass) : P :=
  m.foldl (fun q e => CachePolicy.destroy q e.1 e.2.2) p

/-- The owner after `destroyCacheEntry` has been called for the entries `m`,
in order. -/
def destroyOwner {O : Type} [CacheLayer O] (o : O) (m : MapClass) : O :=
  m.foldl (fun q e => CacheLayer.destroyCacheEntry q e.1 e.2.1) o

/-- The id of a `policy.destroy` call. -/
def Event.destroyId : Event → Option Fingerprint
  | Event.destroy id _ => some id
  | _ => none

/-- The id of a `destroyCacheEntry` call. -/
def Event.hookId : Event → Option Fingerprint
  | Event.destroyCacheEntry id _ => some id
  | _ => none

/-- The effect of one call on the live bookkeeping records: `create` opens a
record for its id, `destroy` closes one record of its id. -/
def liveStep (l : List Fingerprint) : Event → List Fingerprint
  | Event.create id _ => id :: l
  | Event.destroy id _ => l.erase id
  | _ => l

/-- The ids of the bookkeeping records that are live after the calls `calls`:
created, and not destroyed since. -/
def live (calls : List Event) : List Fingerprint := calls.foldl liveStep []

/-- The invariant of the write operations: the map is in ascending key order
and the live bookkeeping records are exactly its keys. -/
def LiveInv {P O : Type} (w : write_iterator P O) : Prop :=
  w.mCachemap.mMap.WF ∧ (live w.mCachemap.calls).Perm w.mCachemap.mMap.keys

/-- An operation of the write iterator. -/
inductive WriteOp where
  | insert (id : Fingerprint) (member : CacheInfo) (size : Nat)
  | find (id : Fingerprint)
  | erase
  | eraseAll
  deriving DecidableEq, Repr

/-- One operation applied to a write iterator; `none` when `erase()` is called
on a position that cannot be dereferenced. -/
def WriteOp.apply {P O : Type} [CachePolicy P] [CacheLayer O] :
    WriteOp → write_iterator P O → Option (write_iterator P O)
  | WriteOp.insert id member size, w => some (w.insert id member size).1
  | WriteOp.find id, w => some (w.find id).1
  | WriteOp.erase, w => w.erase
  | WriteOp.eraseAll, w => w.eraseAll

/-- A sequence of operations applied in order. -/
def runOps {P O : Type} [CachePolicy P] [CacheLayer O] :
    List WriteOp → write_iterator P O → Option (write_iterator P O)
  | [], w => some w
  | op :: ops, w =>
    match op.apply w with
    | none => none
    | some w1 => runOps ops w1

/-- The constructor `CacheMap(owner, policy)`: an empty map, no call made. -/
def CacheMap.new {P O : Type} (owner : O) (policy : P) : CacheMap P O :=
  { mMap := [], mOwner := owner, mPolicy := policy, calls := [] }

/-- The iterator after `k` calls of `iterate()`. -/
def read_iterator.iterateTimes {P O : Type} : Nat → read_iterator P O → read_iterator P O
  | 0, r => r
  | k + 1, r => (read_iterator.iterateTimes k r).iterate.1

/-- The loop `while (it.iterate()) body`, where the body records `getId()`:
the ids recorded, turn by turn; `none` when `fuel` calls of `iterate()` did not
end the loop. -/
def read_iterator.whileIterate {P O : Type} :
    Nat → read_iterator P O → Option (List (Option Fingerprint))
  | 0, _ => none
  | fuel + 1, r =>
    if r.iterate.2 then
      (read_iterator.whileIterate fuel r.iterate.1).map (fun ids => r.iterate.1.getId :: ids)
    else some []

/-! ## HTTP name lookup -/

/-- A `std::string`: its bytes, each an `unsigned char`. -/
abbrev StdString := List Nat

/-- The classification `std::isspace` for an `unsigned char` in the default
"C" locale: space, and horizontal tab, line feed, vertical tab, form feed,
carriage return (9 to 13). -/
def isspace (c : Nat) : Bool := c == 32 || (9 ≤ c && c ≤ 13)

/-- The algorithm `std::remove_if` followed by the `erase` of the tail it
leaves: the elements for which `p` is false, in their order. -/
def remove_if (p : Nat → Bool) : StdString → StdString
  | [] => []
  | c :: cs => if p c then remove_if p cs else c :: remove_if p cs

/-- One invocation of a `NameLookupHandler::Callback`. -/
structure NameCall where
  fingerprint : Fingerprint
  uri : StdString
  success : Bool
  deriving DecidableEq, Repr

/-- Modelled from the spec: `URI.hpp` and the fingerprint class are not among
the sources, so what `nameCallback` uses of them is a parameter: the
constructor `URI(context, string)` that resolves a string against a context,
`URI::filename()` (spec section 3: the last path segment), and
`Fingerprint::convertFromHex` (spec section 6), which is `none` when the
decoder raises instead of returning a fingerprint. -/
structure NameLookupEnv (Context Uri : Type) where
  resolve : Context → StdString → Uri
  filename : Uri → StdString
  convertFromHex : StdString → Option Fingerprint

namespace HTTPDownloadHandler

/-- The functor `IsSpace`. -/
def IsSpace (c : Nat) : Bool := isspace c

/-- The function `nameCallback(callback, httpreq, data, success)`: the
invocations of `callback`, in order; `none` when `convertFromHex` raises, which
leaves `nameCallback` before `callback` is reached.  `requestContext` is
`httpreq->getURI().context()` and `data` the bytes of the response. -/
def nameCallback {Context Uri : Type} (env : NameLookupEnv Context Uri)
    (requestContext : Context) (data : StdString) (success : Bool) :
    Option (List NameCall) :=
  if success then
    let receivedUri := remove_if IsSpace data
    let temp := env.resolve requestContext receivedUri
    let shasum := env.filename temp
    match env.convertFromHex shasum with
    | some fp => some [{ fingerprint := fp, uri := receivedUri, success := true }]
    | none => none
  else
    some [{ fingerprint := 0, uri := [], success := false }]

end HTTPDownloadHandler

/-- Modelled from the spec: section 3, a URI is a pair of a context and a
path. -/
structure URI where
  context : StdString
  path : StdString
  deriving DecidableEq, Repr

/-- Modelled from the spec: section 3, the filename of a URI is its last path
segment, what follows the last `/` (byte 47). -/
def lastSegment : StdString → StdString
  | [] => []
  | c :: cs => if 47 ∈ cs then lastSegment cs else if c = 47 then cs else c :: cs

/-- Modelled from the spec: the value of one lowercase hex digit. -/
def hexDigit (c : Nat) : Option Nat :=
  if 48 ≤ c ∧ c ≤ 57 then some (c - 48)
  else if 97 ≤ c ∧ c ≤ 102 then some (c - 87)
  else none

/-- Modelled from the spec: the number written by a string of hex digits,
most significant first, continuing from `acc`. -/
def hexValue : StdString → Nat → Option Nat
  | [], acc => some acc
  | c :: cs, acc =>
    match hexDigit c with
    | some d => hexValue cs (16 * acc + d)
    | none => none

/-- Modelled from the spec: section 6, `convertFromHex` reads 64 lowercase hex
characters; any other string fails to parse. -/
def convertFromHex (s : StdString) : Option Fingerprint :=
  if s.length = 64 then hexValue s 0 else none

/-- The collaborators of spec sections 3 and 6, with a decoder that raises on
a string that fails to parse. -/
def raisingEnv : NameLookupEnv StdString URI :=
  { resolve := fun ctx s => { context := ctx, path := s }
    filename := fun u => lastSegment u.path
    convertFromHex := convertFromHex }

/-- The same collaborators with a decoder that returns the zero fingerprint
for a string that fails to parse. -/
def zeroEnv : NameLookupEnv StdString URI :=
  { resolve := fun ctx s => { context := ctx, path := s }
    filename := fun u => lastSegment u.path
    convertFromHex := fun s => some ((convertFromHex s).getD 0) }

/-- The bytes of a string literal. -/
def bytes (s : String) : StdString := s.data.map Char.toNat

/-- A request context: `http://example.com/`. -/
def exampleContext : StdString := bytes "http://example.com/"

/-- A response body: a URI whose filename is 64 hex characters, with white
space before, inside and after. -/
def goodBody : StdString :=
  bytes " mhash:///55ca2e1659205d75\t2e4285ce927dcda19b039ca793011610aaee3e5ab250ff80\r\n"

/-- The body `goodBody` without its white space. -/
def goodUri : StdString :=
  bytes "mhash:///55ca2e1659205d752e4285ce927dcda19b039ca793011610aaee3e5ab250ff80"

/-- The fingerprint written by the 64 hex characters of `goodUri`. -/
def goodFingerprint : Fingerprint :=
  38803813319499763865310143908845961373516221257664774396793257321772990136192

/-- A response body whose filename, `zz`, is not a hex fingerprint. -/
def badBody : StdString := bytes "mhash:///zz\n"

/-! ## A concrete policy, layer and map for the worked examples -/

/-- A policy whose state is the number of handles handed out: `create` returns
the next handle (never `0`, the value of `PolicyData()`). -/
structure CountingPolicy where
  handles : Nat
  touched : Nat
  deriving DecidableEq, Repr

instance : CachePolicy CountingPolicy where
  create p _ _ := (p.handles + 1, { p with handles := p.handles + 1 })
  destroy p _ _ := p
  use p _ _ := { p with touched := p.touched + 1 }
  useAndUpdate p _ _ _ := { p with touched := p.touched + 1 }

/-- A layer whose state is the number of entries it was asked to destroy. -/
structure CountingLayer where
  destroyed : Nat
  deriving DecidableEq, Repr

instance : CacheLayer CountingLayer where
  destroyCacheEntry o _ _ := { destroyed := o.destroyed + 1 }

/-- A map with the three keys 2, 5 and 9. -/
def exampleMap : CacheMap CountingPolicy CountingLayer :=
  { mMap := [(2, (20, 1)), (5, (50, 2)), (9, (90, 3))]
    mOwner := { destroyed := 0 }
    mPolicy := { handles := 3, touched := 0 }
    calls := [] }

/-- A sequence of write operations used in the worked examples. -/
def exampleOps : List WriteOp :=
  [WriteOp.insert 7 70 16, WriteOp.insert 3 30 8, WriteOp.insert 7 71 4,
   WriteOp.find 7, WriteOp.erase, WriteOp.insert 9 90 2, WriteOp.eraseAll,
   WriteOp.insert 4 40 1, WriteOp.insert 1 10 1]

/-- The write iterator reached by `exampleOps` from an empty map. -/
def exampleFinal : write_iterator CountingPolicy CountingLayer :=
  { mCachemap :=
      { mMap := [(1, (10, 5)), (4, (40, 4))]
        mOwner := { destroyed := 3 }
        mPolicy := { handles := 5, touched := 0 }
        calls :=
          [Event.create 7 16, Event.create 3 8, Event.destroy 7 1,
           Event.destroyCacheEntry 7 70, Event.create 9 2, Event.destroy 3 2,
           Event.destroyCacheEntry 3 30, Event.destroy 9 3,
           Event.destroyCacheEntry 9 90, Event.create 4 1, Event.create 1 1] }
    mIter := 0 }

/-! ## Allocation, erasing key by key, and the destructor -/

/-- Modelled from the spec: `CachePolicy.hpp` is not among the sources.  Spec
section 4.3: `allocateSpace(required, writer)` evicts victims through
`writer.erase()` and returns a boolean.  The policy names, from its own state,
the victim it evicts next (`none` when it stops) and the value it returns when
it stops. -/
class EvictingPolicy (P : Type) extends CachePolicy P where
  victim : P → Nat → Option Fingerprint
  granted : P → Nat → Bool

namespace write_iterator
variable {P O : Type}

/-- The key-by-key counterpart of `eraseAll()`: `find(k)` followed by
`erase()` for each key of `ks` in order. -/
def eraseEach [CachePolicy P] [CacheLayer O] :
    List Fingerprint → write_iterator P O → Option (write_iterator P O)
  | [], w => some w
  | k :: ks, w =>
    match (w.find k).1.erase with
    | none => none
    | some w1 => eraseEach ks w1

end write_iterator

/-- Modelled from the spec: the loop of `allocateSpace(required, writer)`:
while the policy names a victim, `writer.find(victim)` and `writer.erase()`;
then the value the policy returns.  Each turn erases an entry, so the number
of entries plus one bounds the turns; `none` when `erase()` is reached on a
position that cannot be dereferenced. -/
def allocateSpaceLoop {P O : Type} [EvictingPolicy P] [CacheLayer O] (required : Nat) :
    Nat → write_iterator P O → Option (Bool × write_iterator P O)
  | 0, _ => none
  | fuel + 1, w =>
    match EvictingPolicy.victim w.mCachemap.mPolicy required with
    | none => some (EvictingPolicy.granted w.mCachemap.mPolicy required, w)
    | some id =>
      match (w.find id).1.erase with
      | none => none
      | some w1 => allocateSpaceLoop required fuel w1

/-- Modelled from the spec: the call `mPolicy->allocateSpace(required, writer)`. -/
def allocateSpace {P O : Type} [EvictingPolicy P] [CacheLayer O] (required : Nat)
    (w : write_iterator P O) : Option (Bool × write_iterator P O) :=
  allocateSpaceLoop required (w.mCachemap.mMap.length + 1) w

namespace CacheMap
variable {P O : Type}

/-- The method `alloc(required)`: a write iterator is constructed, the policy
allocates through it, and the iterator is destroyed on return; the value
returned and the map left behind. -/
def alloc [EvictingPolicy P] [CacheLayer O] (m : CacheMap P O) (required : Nat) :
    Option (Bool × CacheMap P O) :=
  let writer := write_iterator.new m
  (allocateSpace required writer).map (fun r => (r.1, r.2.mCachemap))

/-- The method `alloc(required, writer)`: the value returned and the writer
after the call. -/
def allocWith [EvictingPolicy P] [CacheLayer O] (required : Nat)
    (writer : write_iterator P O) : Option (Bool × write_iterator P O) :=
  allocateSpace required writer

/-- The destructor `~CacheMap()`: `eraseAll()` on a write iterator constructed
for it; the map left behind. -/
def destructor [CachePolicy P] [CacheLayer O] (m : CacheMap P O) :
    Option (CacheMap P O) :=
  let clearIterator := write_iterator.new m
  clearIterator.eraseAll.map (fun w => w.mCachemap)

end CacheMap

/-- Modelled from the spec: the LRU policy of section 4.3, with its budget and
its live entries, most recently used first, each with its size. -/
structure LRUPolicy where
  budget : Nat
  entries : List (Fingerprint × Nat)
  deriving DecidableEq, Repr

/-- The running sum of the entry sizes. -/
def LRUPolicy.used (p : LRUPolicy) : Nat := (p.entries.map Prod.snd).sum

instance : EvictingPolicy LRUPolicy where
  create p id size := (size, { p with entries := (id, size) :: p.entries })
  destroy p id _ := { p with entries := p.entries.filter (fun e => e.1 != id) }
  use p id data :=
    { p with entries := (id, data) :: p.entries.filter (fun e => e.1 != id) }
  useAndUpdate p id _ newSize :=
    { p with entries := (id, newSize) :: p.entries.filter (fun e => e.1 != id) }
  victim p required :=
    if required ≤ p.budget ∧ p.budget - p.used < required then
      p.entries.getLast?.map Prod.fst
    else none
  granted p required := decide (required ≤ p.budget)

/-- A map of three entries of 300 bytes each under an LRU budget of 1000;
key 5 is the least recently used, then key 9, then key 2. -/
def lruMap : CacheMap LRUPolicy CountingLayer :=
  { mMap := [(2, (20, 300)), (5, (50, 300)), (9, (90, 300))]
    mOwner := { destroyed := 0 }
    mPolicy := { budget := 1000, entries := [(2, 300), (9, 300), (5, 300)] }
    calls := [] }

/-- The map `lruMap` after the entries of keys 5 and 9 were evicted. -/
def lruMapAfter : CacheMap LRUPolicy CountingLayer :=
  { mMap := [(2, (20, 300))]
    mOwner := { destroyed := 2 }
    mPolicy := { budget := 1000, entries := [(2, 300)] }
    calls :=
      [Event.destroy 5 300, Event.destroyCacheEntry 5 50,
       Event.destroy 9 300, Event.destroyCacheEntry 9 90] }

end Transfer

namespace Meru

/-- The comparison `GraphicsResourcePriorityLessThanFunctor::operator()` of
`GraphicsResourceManager`, on pairs of a priority and the address of a
resource.  The priorities are `float` values other than NaN, compared by
value: an ordered set of numbers, the type `α`. -/
def GraphicsResourcePriorityLessThanFunctor {α : Type} [LinearOrder α]
    (key1 key2 : α × Nat) : Bool :=
  if key1.1 ≠ key2.1 then decide (key1.1 > key2.1)
  else decide (key1.2 < key2.2)

end Meru

namespace Transfer

/-! ## Byte ranges, dense and sparse data, and the memory layer -/

/-- Modelled from the spec: `Range.hpp` is not among the sources.  Section 3:
a byte interval described by its start, its length and a whole-file flag;
with the flag the range runs from `start` to the end of the file, whatever
its length. -/
structure Range where
  start : Nat
  length : Nat
  wholeFile : Bool
  deriving DecidableEq, Repr

namespace Range

/-- The exclusive end of a bounded range. -/
def endbyte (r : Range) : Nat := r.start + r.length

/-- Modelled from the spec: section 6, `Range.bounds(start, end,
whole_file_after_end)`, in the test suite `Range(start, end, BOUNDS)` and
`Range(start, end, BOUNDS, true)`. -/
def bounds (startbyte endbyte : Nat) (wholeFileAfterEnd : Bool) : Range :=
  { start := startbyte, length := endbyte - startbyte, wholeFile := wholeFileAfterEnd }

/-- Modelled from the spec: section 6, `Range.length(start, len)`, in the test
suite `Range(start, len, LENGTH)`. -/
def ofLength (startbyte len : Nat) : Range :=
  { start := startbyte, length := len, wholeFile := false }

/-- Modelled from the spec: section 6, `Range.wholeFile()`, in the test suite
`Range(true)`. -/
def whole : Range := { start := 0, length := 0, wholeFile := true }

/-- Modelled from the spec: the offsets of a range; section 4.1 treats a
whole-file range as the universal upper set, every offset from its start. -/
def inRange (r : Range) (o : Nat) : Bool :=
  decide (r.start ≤ o) && (r.wholeFile || decide (o < r.endbyte))

/-- Modelled from the spec: section 4.1, `contains(outer, inner)` is true iff
`outer.start ≤ inner.start` and `inner.end ≤ outer.end`, or
`outer.whole_file`. -/
def contains (outer inner : Range) : Bool :=
  (decide (outer.start ≤ inner.start) && decide (inner.endbyte ≤ outer.endbyte)) ||
    outer.wholeFile

end Range

/-- Modelled from the spec: `DenseData` is not among the sources.  Section 3:
a byte buffer tagged with its starting offset, its length the length of the
buffer.  The test suite builds a `DenseData` from a `Range` and reads it back
as one, so it carries the whole-file flag of its range. -/
structure DenseData where
  start : Nat
  bytes : List Nat
  wholeFile : Bool
  deriving DecidableEq, Repr

namespace DenseData

/-- The accessor `startbyte()`. -/
def startbyte (d : DenseData) : Nat := d.start

/-- The accessor `length()`. -/
def length (d : DenseData) : Nat := d.bytes.length

/-- The accessor `endbyte()`. -/
def endbyte (d : DenseData) : Nat := d.start + d.bytes.length

/-- The conversion of a `DenseData` to its `Range`. -/
def range (d : DenseData) : Range :=
  { start := d.start, length := d.bytes.length, wholeFile := d.wholeFile }

/-- Whether the buffer holds the byte at offset `o`. -/
def covers (d : DenseData) (o : Nat) : Bool :=
  decide (d.start ≤ o) && decide (o < d.endbyte)

/-- The accessor `dataAt(offset)`: the buffer from the byte at `offset` on. -/
def dataAt (d : DenseData) (o : Nat) : List Nat := d.bytes.drop (o - d.start)

/-- The byte the buffer holds at offset `o`. -/
def byteAt (d : DenseData) (o : Nat) : Option Nat :=
  if d.covers o then d.bytes[o - d.start]? else none

/-- Modelled from the spec: section 4.2, an existing fragment `g` that
overlaps or touches the new fragment `f` is removed and what it holds before
and after `f` is kept around `f`; where both hold an offset `f` wins, and the
pieces touching `f` are coalesced into it. -/
def merge (g f : DenseData) : DenseData :=
  { start := min g.start f.start
    bytes := g.bytes.take (f.start - g.start) ++ f.bytes ++
      g.bytes.drop (f.endbyte - g.start)
    wholeFile := g.wholeFile || f.wholeFile }

end DenseData

/-- Modelled from the spec: `SparseData` is not among the sources.  Section 3:
an ordered collection of `DenseData` fragments of one asset. -/
abbrev SparseData := List DenseData

namespace SparseData

/-- Modelled from the spec: the invariants of section 3, fragments in
ascending start order, not overlapping and not adjacent: each ends strictly
before the next starts. -/
def Normal (sp : SparseData) : Prop := sp.Pairwise (fun g h => g.endbyte < h.start)

instance (sp : SparseData) : Decidable (Normal sp) := by
  unfold Normal; infer_instance

/-- Modelled from the spec: section 4.2, insertion of the fragment `f`.  The
fragments that end before `f` starts are passed over, up to the first whose
end reaches `f.start`; from there every fragment that overlaps or touches `f`
is merged into it; `f` is placed at the gap before the first fragment that
starts after its end. -/
def insert : SparseData → DenseData → SparseData
  | [], f => [f]
  | g :: gs, f =>
    if g.endbyte < f.start then g :: insert gs f
    else if f.endbyte < g.start then f :: g :: gs
    else insert gs (g.merge f)

/-- A sequence of fragments inserted in order. -/
def insertAll (sp : SparseData) (fs : List DenseData) : SparseData :=
  fs.foldl insert sp

/-- The fragment that holds the byte at offset `o`. -/
def fragAt (sp : SparseData) (o : Nat) : Option DenseData :=
  sp.find? (fun f => f.covers o)

/-- Modelled from the spec: section 4.2, `dataAt(offset)`: `none` (a null
pointer) when `offset` is in a hole, otherwise the bytes of the covering
fragment from `offset` to the end of that fragment. -/
def dataAt (sp : SparseData) (o : Nat) : Option (List Nat) :=
  (sp.fragAt o).map (fun f => f.dataAt o)

/-- The byte held at offset `o`. -/
def byteAt (sp : SparseData) (o : Nat) : Option Nat :=
  (sp.fragAt o).bind (fun f => f.byteAt o)

/-- Whether offset `o` is in the union of the ranges of the fragments. -/
def covered (sp : SparseData) (o : Nat) : Bool :=
  sp.any (fun f => f.range.inRange o)

/-- Modelled from the spec: section 3 and 4.1, the query whether the sparse
set covers the range `r`: `r` is covered by the union of the fragments.  A
range that runs to the end of the file needs a fragment that does, and every
offset from its start up to that fragment. -/
def contains (sp : SparseData) (r : Range) : Bool :=
  if r.wholeFile then
    sp.any (fun f => f.wholeFile &&
      (List.range (f.start - r.start)).all (fun i => covered sp (r.start + i)))
  else
    (List.range r.length).all (fun i => covered sp (r.start + i))

/-- An offset at or beyond the end of every fragment. -/
def bound : SparseData → Nat
  | [] => 0
  | f :: fs => max f.endbyte (bound fs)

end SparseData

namespace MemoryCache

/-- Modelled from the spec: `MemoryCache.hpp` is not among the sources.
Sections 4.5 and 4.6, `getData` for one asset whose payload is `sparse`: the
argument the callback receives (`none` for a null pointer) and the payload
afterwards.  When the payload covers the range the callback receives it;
otherwise the request goes to `next`, the rest of the chain, and what comes
back is inserted when the layer and its policy accept it (`accepts`) and passed
to the callback either way; with no next layer the callback receives null. -/
def getData (next : Option (Range → Option DenseData)) (accepts : Range → DenseData → Bool)
    (sparse : SparseData) (range : Range) : Option SparseData × SparseData :=
  if sparse.contains range then (some sparse, sparse)
  else
    match next with
    | none => (none, sparse)
    | some chain =>
      match chain range with
      | none => (none, sparse)
      | some dense =>
        if accepts range dense then (some (sparse.insert dense), sparse.insert dense)
        else (some [dense], sparse)

end MemoryCache

/-- Modelled from the spec: section 6, the fetcher contract.  The rest of the
chain, serving the bytes `file` of the asset: the bytes of the range, to the
end of the file for a whole-file range. -/
def fetch (file : List Nat) (r : Range) : Option DenseData :=
  some
    { start := r.start
      bytes := if r.wholeFile then file.drop r.start else (file.drop r.start).take r.length
      wholeFile := r.wholeFile }

/-- The loop of `TransferTestSuite::compareCallback` from `offset`: whether
every assertion made held.  Each turn advances `offset`, so `fuel` bounds the
turns; `none` when they did not end the loop. -/
def compareLoop (compare : DenseData) (myData : SparseData) : Nat → Nat → Option Bool
  | 0, _ => none
  | fuel + 1, offset =>
    if offset < compare.endbyte then
      match myData.dataAt offset with
      | none => some false
      | some gotData =>
        let len := gotData.length
        let n := if len + offset < compare.endbyte then len else compare.endbyte - offset
        let equal := decide ((compare.dataAt offset).take n = gotData.take n)
        if offset + len ≥ compare.endbyte then some equal
        else (compareLoop compare myData fuel (offset + len)).map (fun rest => equal && rest)
    else some true

/-- The test callback `TransferTestSuite::compareCallback(compare, myData)`:
whether every assertion made held, starting with `myData != NULL`. -/
def compareCallback (compare : DenseData) (myData : Option SparseData) : Option Bool :=
  match myData with
  | none => some false
  | some sparse => compareLoop compare sparse (compare.length + 1) compare.startbyte

/-- The first bytes of the asset of the test suite. -/
def exampleFile : List Nat :=
  bytes "<HTML>\r\n<HEAD>\r\n  <TITLE>Example Web Page</TITLE>\r\n</HEAD>"

/-- The fill for the bounds `[s, e)` of the asset. -/
def fill (file : List Nat) (s e : Nat) : DenseData :=
  { start := s, bytes := (file.drop s).take (e - s), wholeFile := false }

/-- The fills of the test `testOverlappingRange`, in order. -/
def exampleFills : List DenseData :=
  [fill exampleFile 6 10, fill exampleFile 2 8, fill exampleFile 8 14, fill exampleFile 6 13]

/-- A policy of admission: what fits a budget of 3200 bytes. -/
def acceptBudget (_r : Range) (d : DenseData) : Bool := decide (d.length ≤ 3200)

/-- The bytes `TML>\r\n` of the asset at `[2, 8)`. -/
def exampleA : List Nat := bytes "TML>\r\n"

/-- The bytes `<HEAD>` of the asset at `[8, 14)`. -/
def exampleB : List Nat := bytes "<HEAD>"

/-- The sparse set after the two fills of the test `testRange`. -/
def exampleRead : SparseData :=
  (SparseData.insert [] { start := 2, bytes := exampleA, wholeFile := false }).insert
    { start := 2 + exampleA.length, bytes := exampleB, wholeFile := false }

/-- The sparse set after the fills of the test `testOverlappingRange`. -/
def exampleSparse : SparseData := SparseData.insertAll [] exampleFills

end Transfer

namespace Meru

/-- An exception in flight: a `std::invalid_argument`, or one of another
type. -/
inductive Exception where
  | invalid_argument
  | other (what : Nat)
  deriving DecidableEq, Repr

/-- A call made on the resource by `hashLookupCallback`. -/
inductive ResourceCall (R : Type) where
  | addDependency (dependency : R)
  | parsed (success : Bool)
  deriving DecidableEq, Repr

/-- Whether a call is a call of `parsed`. -/
def ResourceCall.isParsed {R : Type} : ResourceCall R → Bool
  | ResourceCall.parsed _ => true
  | ResourceCall.addDependency _ => false

/-- What `hashLookupCallback` calls and is not among the sources, taken as a
parameter: `ResourceHash::uri()`, `GraphicsResourceManager::getResourceAsset`
(declared in `GraphicsResourceManager.hpp` with no exception specification),
which returns a resource or raises, and the methods `addDependency` and
`parsed` of the resource, each giving the exception it raises, `none` when it
returns. -/
structure ResourceEnv (H U T R : Type) where
  uri : H → U
  getResourceAsset : U → T → Except Exception R
  addDependency : R → Option Exception
  parsed : Bool → Option Exception

/-- What a run of `hashLookupCallback` did: the calls it made on the resource,
in order, and the exception that left it, `none` when it returned. -/
structure Outcome (R : Type) where
  calls : List (ResourceCall R)
  escaped : Option Exception

namespace GraphicsResourceName

/-- The body of the `try` block of `hashLookupCallback`: the calls made and
the exception raised in it, if any. -/
def tryBlock {H U T R : Type} (env : ResourceEnv H U T R) (refType : T) (hash : H) :
    Outcome R :=
  match env.getResourceAsset (env.uri hash) refType with
  | Except.error e => { calls := [], escaped := some e }
  | Except.ok hashResource =>
    match env.addDependency hashResource with
    | some e => { calls := [ResourceCall.addDependency hashResource], escaped := some e }
    | none =>
      { calls := [ResourceCall.addDependency hashResource, ResourceCall.parsed true]
        escaped := env.parsed true }

/-- The function `GraphicsResourceName::hashLookupCallback(resourcePtr,
refType, id, hash)`.  `resource` is the result of `resourcePtr.lock()`, `none`
when the weak pointer has expired; `hash` is `none` for a null pointer.  The
handler `catch (std::invalid_argument &)` takes an exception of that type
only. -/
def hashLookupCallback {H U T R S : Type} (env : ResourceEnv H U T R)
    (resource : Option S) (refType : T) (hash : Option H) : Outcome R :=
  match resource with
  | none => { calls := [], escaped := none }
  | some _ =>
    match hash with
    | some h =>
      match (tryBlock env refType h).escaped with
      | some Exception.invalid_argument =>
        { calls := (tryBlock env refType h).calls ++ [ResourceCall.parsed false]
          escaped := env.parsed false }
      | _ => tryBlock env refType h
    | none => { calls := [ResourceCall.parsed false], escaped := env.parsed false }

end GraphicsResourceName

/-- A resource manager that knows the asset of URI 1, rejects URI 2 with
`std::invalid_argument` and fails on any other URI with an exception of
another type; `addDependency` and `parsed` return. -/
def exampleEnv : ResourceEnv Nat Nat Nat Nat :=
  { uri := fun h => h
    getResourceAsset := fun u _ =>
      if u = 1 then Except.ok 100
      else if u = 2 then Except.error Exception.invalid_argument
      else Except.error (Exception.other 7)
    addDependency := fun _ => none
    parsed := fun _ => none }

end Meru

namespace Transfer

/-! ## Facts about the ordered map -/

namespace MapClass

theorem find_cons (e : Fingerprint × MapEntry) (es : MapClass) (id : Fingerprint) :
    find (e :: es) id = if e.1 = id then 0 else find es id + 1 := by
  unfold find
  rw [List.findIdx_cons]
  by_cases h : e.1 = id
  · have hb : (e.1 == id) = true := by simpa using h
    simp [hb, h]
  · have hb : (e.1 == id) = false := by simpa using h
    simp [hb, h]

theorem find_le (m : MapClass) (id : Fingerprint) : find m id ≤ m.length := by
  induction m with
  | nil => simp [find]
  | cons e es ih =>
    rw [find_cons]
    split <;> simp [ih]

theorem find_lt_iff (m : MapClass) (id : Fingerprint) :
    find m id < m.length ↔ id ∈ keys m := by
  induction m with
  | nil => simp [find, keys]
  | cons e es ih =>
    rw [find_cons]
    by_cases h : e.1 = id
    · simp [h, keys]
    · have h2 : ¬ id = e.1 := fun h3 => h h3.symm
      simp [h, h2, keys] at ih ⊢
      exact ih

theorem find_eq_length_iff (m : MapClass) (id : Fingerprint) :
    find m id = m.length ↔ id ∉ keys m := by
  have h1 := find_le m id
  have h2 := find_lt_iff m id
  constructor
  · intro h hk
    have := h2.2 hk
    omega
  · intro h
    by_contra hne
    exact h (h2.1 (by omega))

theorem get?_find (m : MapClass) (id : Fingerprint) (h : id ∈ keys m) :
    ∃ e, m.get? (find m id) = some (id, e) := by
  induction m with
  | nil => simp [keys] at h
  | cons e es ih =>
    rw [find_cons]
    by_cases h1 : e.1 = id
    · refine ⟨e.2, ?_⟩
      simp [h1.symm]
    · have h2 : id ∈ keys es := by
        simp only [keys, List.map_cons, List.mem_cons] at h
        rcases h with h | h
        · exact absurd h.symm h1
        · exact h
      obtain ⟨x, hx⟩ := ih h2
      exact ⟨x, by simpa [h1] using hx⟩

theorem mem_keys_of_get? (m : MapClass) (i : Nat) (k : Fingerprint) (e : MapEntry)
    (h : m.get? i = some (k, e)) : k ∈ keys m := by
  have := List.get?_mem h
  exact List.mem_map.2 ⟨(k, e), this, rfl⟩

theorem wf_cons (e : Fingerprint × MapEntry) (es : MapClass) :
    WF (e :: es) ↔ (∀ x ∈ es, e.1 < x.1) ∧ WF es := by
  unfold WF
  exact List.pairwise_cons

theorem lt_of_mem_keys (e : Fingerprint × MapEntry) (es : MapClass)
    (h : WF (e :: es)) (k : Fingerprint) (hk : k ∈ keys es) : e.1 < k := by
  obtain ⟨x, hx, rfl⟩ := List.mem_map.1 hk
  exact ((wf_cons e es).1 h).1 x hx

theorem wf_nodup (m : MapClass) (h : WF m) : (keys m).Nodup := by
  induction m with
  | nil => simp [keys]
  | cons e es ih =>
    have h1 := (wf_cons e es).1 h
    simp only [keys, List.map_cons, List.nodup_cons]
    refine ⟨fun hm => ?_, ih h1.2⟩
    exact Nat.lt_irrefl _ (lt_of_mem_keys e es h e.1 hm)

theorem wf_keys_sorted (m : MapClass) (h : WF m) : (keys m).Pairwise (· < ·) := by
  unfold keys
  rw [List.pairwise_map]
  exact h

/-- In a well-formed map the position of a key is the position `find` gives. -/
theorem find_of_get? (m : MapClass) (h : WF m) (i : Nat) (k : Fingerprint) (e : MapEntry)
    (hi : m.get? i = some (k, e)) : find m k = i := by
  induction m generalizing i with
  | nil => simp at hi
  | cons x xs ih =>
    rw [find_cons]
    cases i with
    | zero =>
      simp at hi
      simp [hi]
    | succ j =>
      simp at hi
      have hk : k ∈ keys xs := mem_keys_of_get? xs j k e (by simpa using hi)
      have hlt := lt_of_mem_keys x xs h k hk
      have hne : ¬ x.1 = k := Nat.ne_of_lt hlt
      simp [hne]
      exact ih ((wf_cons x xs).1 h).2 j (by simpa using hi)

theorem entry_eq_of_get? (m : MapClass) (h : WF m) (i : Nat) (k : Fingerprint) (e : MapEntry)
    (hi : m.get? i = some (k, e)) : entry m k = some e := by
  unfold entry
  rw [find_of_get? m h i k e hi, hi]
  rfl

theorem entry_eq_none_iff (m : MapClass) (k : Fingerprint) :
    entry m k = none ↔ k ∉ keys m := by
  unfold entry
  rw [Option.map_eq_none', List.get?_eq_none, ← find_eq_length_iff]
  have := find_le m k
  omega

theorem entry_cons (x : Fingerprint × MapEntry) (xs : MapClass) (k : Fingerprint) :
    entry (x :: xs) k = if x.1 = k then some x.2 else entry xs k := by
  unfold entry
  rw [find_cons]
  by_cases h : x.1 = k <;> simp [h]

theorem insert_cons (x : Fingerprint × MapEntry) (xs : MapClass) (v : Fingerprint × MapEntry) :
    insert (x :: xs) v =
      if v.1 < x.1 then (v :: x :: xs, (0, true))
      else if v.1 = x.1 then (x :: xs, (0, false))
      else ((x :: (insert xs v).1), ((insert xs v).2.1 + 1, (insert xs v).2.2)) := by
  rw [insert]

theorem not_mem_keys_cons (x : Fingerprint × MapEntry) (xs : MapClass) (id : Fingerprint) :
    id ∉ keys (x :: xs) ↔ id ≠ x.1 ∧ id ∉ keys xs := by
  simp [keys]

theorem find_insert (m : MapClass) (id : Fingerprint) (e : MapEntry) :
    find (insert m (id, e)).1 id = (insert m (id, e)).2.1 := by
  induction m with
  | nil => simp [insert, find_cons]
  | cons x xs ih =>
    rw [insert_cons]
    by_cases h1 : id < x.1
    · simp [h1, find_cons]
    · by_cases h2 : id = x.1
      · simp [h2, find_cons]
      · have h3 : ¬ x.1 = id := fun h => h2 h.symm
        simp [h1, h2, h3, find_cons, ih]

theorem insert_snd_of_not_mem (m : MapClass) (id : Fingerprint) (e : MapEntry)
    (h : id ∉ keys m) : (insert m (id, e)).2.2 = true := by
  induction m with
  | nil => simp [insert]
  | cons x xs ih =>
    rw [not_mem_keys_cons] at h
    rw [insert_cons]
    by_cases h1 : id < x.1
    · simp [h1]
    · simp [h1, h.1, ih h.2]

theorem insert_perm_of_not_mem (m : MapClass) (id : Fingerprint) (e : MapEntry)
    (h : id ∉ keys m) : (insert m (id, e)).1.Perm ((id, e) :: m) := by
  induction m with
  | nil => simp [insert]
  | cons x xs ih =>
    rw [not_mem_keys_cons] at h
    rw [insert_cons]
    by_cases h1 : id < x.1
    · simp [h1]
    · simp only [h1, h.1, if_false]
      exact ((ih h.2).cons x).trans (List.Perm.swap _ _ _)

theorem get?_insert_of_not_mem (m : MapClass) (id : Fingerprint) (e : MapEntry)
    (h : id ∉ keys m) :
    (insert m (id, e)).1.get? (insert m (id, e)).2.1 = some (id, e) := by
  induction m with
  | nil => simp [insert]
  | cons x xs ih =>
    rw [not_mem_keys_cons] at h
    rw [insert_cons]
    by_cases h1 : id < x.1
    · simp [h1]
    · simp only [h1, h.1, if_false]
      simpa using ih h.2

theorem insert_of_mem (m : MapClass) (hwf : WF m) (id : Fingerprint) (e : MapEntry)
    (h : id ∈ keys m) : insert m (id, e) = (m, (find m id, false)) := by
  induction m with
  | nil => simp [keys] at h
  | cons x xs ih =>
    rw [insert_cons, find_cons]
    by_cases h2 : id = x.1
    · have h1 : ¬ id < x.1 := by rw [h2]; exact Nat.lt_irrefl _
      simp [h1, h2]
    · have hk : id ∈ keys xs := by
        simp only [keys, List.map_cons, List.mem_cons] at h
        rcases h with h | h
        · exact absurd h h2
        · exact h
      have hlt := lt_of_mem_keys x xs hwf id hk
      have h1 : ¬ id < x.1 := Nat.lt_asymm hlt
      have h3 : ¬ x.1 = id := fun h => h2 h.symm
      simp only [h1, h2, h3, if_false]
      rw [ih ((wf_cons x xs).1 hwf).2 hk]

theorem mem_insert (m : MapClass) (v y : Fingerprint × MapEntry)
    (h : y ∈ (insert m v).1) : y = v ∨ y ∈ m := by
  induction m with
  | nil => simpa [insert] using h
  | cons x xs ih =>
    rw [insert_cons] at h
    by_cases h1 : v.1 < x.1
    · simpa [h1] using h
    · by_cases h2 : v.1 = x.1
      · rw [if_neg h1, if_pos h2] at h
        exact Or.inr h
      · simp only [h1, h2, if_false, List.mem_cons] at h
        rcases h with h | h
        · exact Or.inr (by simp [h])
        · rcases ih h with h | h
          · exact Or.inl h
          · exact Or.inr (by simp [h])

theorem insert_wf (m : MapClass) (hwf : WF m) (v : Fingerprint × MapEntry) :
    WF (insert m v).1 := by
  induction m with
  | nil => simp [insert, WF]
  | cons x xs ih =>
    have hx := (wf_cons x xs).1 hwf
    rw [insert_cons]
    by_cases h1 : v.1 < x.1
    · simp only [h1, if_true]
      rw [wf_cons]
      refine ⟨fun y hy => ?_, hwf⟩
      rcases List.mem_cons.1 hy with hy | hy
      · rw [hy]; exact h1
      · exact Nat.lt_trans h1 (hx.1 y hy)
    · by_cases h2 : v.1 = x.1
      · rw [if_neg h1, if_pos h2]
        exact hwf
      · simp only [h1, h2, if_false]
        rw [wf_cons]
        refine ⟨fun y hy => ?_, ih hx.2⟩
        rcases mem_insert xs v y hy with hy | hy
        · rw [hy]
          exact Nat.lt_of_le_of_ne (Nat.le_of_not_lt h1) (fun h => h2 h.symm)
        · exact hx.1 y hy

theorem insert_snd_indep (m : MapClass) (id : Fingerprint) (e1 e2 : MapEntry) :
    (insert m (id, e1)).2 = (insert m (id, e2)).2 := by
  induction m with
  | nil => simp [insert]
  | cons x xs ih =>
    rw [insert_cons, insert_cons]
    by_cases h1 : id < x.1
    · simp [h1]
    · by_cases h2 : id = x.1
      · simp [h2]
      · simp [h1, h2, ih]

theorem setPolicyInfo_insert (m : MapClass) (id : Fingerprint) (a : CacheInfo)
    (b d : PolicyData) (h : id ∉ keys m) :
    setPolicyInfo (insert m (id, (a, b))).1 (insert m (id, (a, b))).2.1 d =
      (insert m (id, (a, d))).1 := by
  induction m with
  | nil => simp [insert, setPolicyInfo]
  | cons x xs ih =>
    rw [not_mem_keys_cons] at h
    rw [insert_cons, insert_cons]
    by_cases h1 : id < x.1
    · simp [h1, setPolicyInfo]
    · simp only [h1, h.1, if_false]
      simp [setPolicyInfo, ih h.2]

theorem entry_insert_ne (m : MapClass) (id : Fingerprint) (e : MapEntry) (k : Fingerprint)
    (h : k ≠ id) : entry (insert m (id, e)).1 k = entry m k := by
  induction m with
  | nil =>
    have h3 : ¬ id = k := fun h2 => h h2.symm
    simp [insert, entry_cons, h3]
  | cons x xs ih =>
    rw [insert_cons]
    by_cases h1 : id < x.1
    · have h3 : ¬ id = k := fun h2 => h h2.symm
      simp only [h1, if_true]
      rw [entry_cons (id, e)]
      simp [h3]
    · by_cases h2 : id = x.1
      · simp [h2]
      · simp only [h1, h2, if_false]
        rw [entry_cons, entry_cons, ih]

theorem length_insert_of_not_mem (m : MapClass) (id : Fingerprint) (e : MapEntry)
    (h : id ∉ keys m) : (insert m (id, e)).1.length = m.length + 1 := by
  simpa using (insert_perm_of_not_mem m id e h).length_eq

theorem perm_eraseIdx (m : MapClass) (i : Nat) (x : Fingerprint × MapEntry)
    (h : m.get? i = some x) : m.Perm (x :: erase m i) := by
  unfold erase
  induction m generalizing i with
  | nil => simp at h
  | cons y ys ih =>
    cases i with
    | zero =>
      simp at h
      simp [h]
    | succ j =>
      simp at h
      simp only [List.eraseIdx_cons_succ]
      exact ((ih j (by simpa using h)).cons y).trans (List.Perm.swap _ _ _)

theorem wf_erase (m : MapClass) (h : WF m) (i : Nat) : WF (erase m i) := by
  unfold WF erase at *
  exact h.sublist (List.eraseIdx_sublist m i)

theorem entry_erase_ne (m : MapClass) (i : Nat) (k : Fingerprint) (e : MapEntry)
    (h : m.get? i = some (k, e)) (k1 : Fingerprint) (hk : k1 ≠ k) :
    entry (erase m i) k1 = entry m k1 := by
  unfold erase
  induction m generalizing i with
  | nil => simp at h
  | cons y ys ih =>
    cases i with
    | zero =>
      simp at h
      have h3 : ¬ y.1 = k1 := by rw [h]; exact fun h2 => hk h2.symm
      simp only [List.eraseIdx_cons_zero]
      rw [entry_cons, if_neg h3]
    | succ j =>
      simp at h
      simp only [List.eraseIdx_cons_succ]
      rw [entry_cons, entry_cons, ih j (by simpa using h)]

theorem keys_perm (m1 m2 : MapClass) (h : m1.Perm m2) : (keys m1).Perm (keys m2) :=
  h.map Prod.fst

theorem not_mem_keys_erase (m : MapClass) (hwf : WF m) (i : Nat) (k : Fingerprint)
    (e : MapEntry) (h : m.get? i = some (k, e)) : k ∉ keys (erase m i) := by
  have hp := keys_perm _ _ (perm_eraseIdx m i (k, e) h)
  have hn := (hp.nodup_iff).1 (wf_nodup m hwf)
  simp only [keys, List.map_cons, List.nodup_cons] at hn
  exact hn.1

end MapClass

/-! ## The write iterator: insert -/

namespace write_iterator
variable {P O : Type}

theorem insert_eq_of_not_mem [CachePolicy P] (w : write_iterator P O) (id : Fingerprint)
    (member : CacheInfo) (size : Nat) (hid : id ∉ w.mCachemap.mMap.keys) :
    w.insert id member size =
      ({ mCachemap := { w.mCachemap with
           mMap := (MapClass.insert w.mCachemap.mMap
             (id, (member, (CachePolicy.create w.mCachemap.mPolicy id size).1))).1
           mPolicy := (CachePolicy.create w.mCachemap.mPolicy id size).2
           calls := w.mCachemap.calls ++ [Event.create id size] },
         mIter := (MapClass.insert w.mCachemap.mMap
             (id, (member, (CachePolicy.create w.mCachemap.mPolicy id size).1))).2.1 },
        true) := by
  unfold insert
  have hs := MapClass.insert_snd_of_not_mem w.mCachemap.mMap id (member, 0) hid
  have hp := MapClass.setPolicyInfo_insert w.mCachemap.mMap id member 0
    (CachePolicy.create w.mCachemap.mPolicy id size).1 hid
  have hi := MapClass.insert_snd_indep w.mCachemap.mMap id (member, 0)
    (member, (CachePolicy.create w.mCachemap.mPolicy id size).1)
  simp only [hs, if_true, hp]
  rw [hi]

theorem insert_eq_of_mem [CachePolicy P] (w : write_iterator P O) (id : Fingerprint)
    (member : CacheInfo) (size : Nat) (hwf : w.mCachemap.mMap.WF)
    (hid : id ∈ w.mCachemap.mMap.keys) :
    w.insert id member size =
      ({ mCachemap := w.mCachemap, mIter := w.mCachemap.mMap.find id }, false) := by
  unfold insert
  rw [MapClass.insert_of_mem w.mCachemap.mMap hwf id (member, 0) hid]
  simp

/-! ## The write iterator: erase and eraseAll -/

theorem destroyCurrent_eq [CachePolicy P] [CacheLayer O] (w : write_iterator P O)
    (k : Fingerprint) (info : CacheInfo) (data : PolicyData)
    (h : w.mCachemap.mMap.get? w.mIter = some (k, (info, data))) :
    w.destroyCurrent = some { w with mCachemap := { w.mCachemap with
      mPolicy := CachePolicy.destroy w.mCachemap.mPolicy k data
      mOwner := CacheLayer.destroyCacheEntry w.mCachemap.mOwner k info
      calls := w.mCachemap.calls ++
        [Event.destroy k data, Event.destroyCacheEntry k info] } } := by
  unfold destroyCurrent getId getPolicyInfo deref
  rw [h]
  rfl

theorem erase_eq [CachePolicy P] [CacheLayer O] (w : write_iterator P O)
    (k : Fingerprint) (info : CacheInfo) (data : PolicyData)
    (h : w.mCachemap.mMap.get? w.mIter = some (k, (info, data))) :
    w.erase = some
      { mCachemap :=
          { mMap := MapClass.erase w.mCachemap.mMap w.mIter
            mOwner := CacheLayer.destroyCacheEntry w.mCachemap.mOwner k info
            mPolicy := CachePolicy.destroy w.mCachemap.mPolicy k data
            calls := w.mCachemap.calls ++
              [Event.destroy k data, Event.destroyCacheEntry k info] }
        mIter := (MapClass.erase w.mCachemap.mMap w.mIter).length } := by
  simp [erase, destroyCurrent_eq w k info data h, MapClass.endIter]

theorem erase_eq_none [CachePolicy P] [CacheLayer O] (w : write_iterator P O)
    (h : w.mCachemap.mMap.get? w.mIter = none) : w.erase = none := by
  unfold erase destroyCurrent getId getPolicyInfo deref
  rw [h]
  rfl

theorem eraseAllLoop_eq [CachePolicy P] [CacheLayer O] (fuel : Nat) :
    ∀ w : write_iterator P O, w.mIter ≤ w.mCachemap.mMap.length →
      w.mCachemap.mMap.length - w.mIter ≤ fuel →
      eraseAllLoop fuel w = some
        { mCachemap :=
            { mMap := w.mCachemap.mMap
              mOwner := destroyOwner w.mCachemap.mOwner (w.mCachemap.mMap.drop w.mIter)
              mPolicy := destroyPolicy w.mCachemap.mPolicy (w.mCachemap.mMap.drop w.mIter)
              calls := w.mCachemap.calls ++ destroyCalls (w.mCachemap.mMap.drop w.mIter) }
          mIter := w.mCachemap.mMap.length } := by
  induction fuel with
  | zero =>
    intro w hle hfuel
    have he : w.mIter = w.mCachemap.mMap.length := by omega
    obtain ⟨⟨m, o, p, c⟩, i⟩ := w
    simp only at he
    subst he
    simp [eraseAllLoop, destroyOwner, destroyPolicy, destroyCalls]
  | succ fuel ih =>
    intro w hle hfuel
    by_cases he : w.mIter = w.mCachemap.mMap.length
    · obtain ⟨⟨m, o, p, c⟩, i⟩ := w
      simp only at he
      subst he
      simp [eraseAllLoop, destroyOwner, destroyPolicy, destroyCalls, MapClass.endIter]
    · have hlt : w.mIter < w.mCachemap.mMap.length := by omega
      have hg : w.mCachemap.mMap.get? w.mIter =
          some ((w.mCachemap.mMap.get ⟨w.mIter, hlt⟩).1,
            ((w.mCachemap.mMap.get ⟨w.mIter, hlt⟩).2.1,
              (w.mCachemap.mMap.get ⟨w.mIter, hlt⟩).2.2)) := by
        rw [List.get?_eq_get hlt]
      have hd : w.mCachemap.mMap.drop w.mIter =
          w.mCachemap.mMap.get ⟨w.mIter, hlt⟩ :: w.mCachemap.mMap.drop (w.mIter + 1) := by
        simp
      rw [eraseAllLoop]
      simp only [MapClass.endIter, bne_iff_ne, ne_eq, he, not_false_eq_true, if_true]
      rw [destroyCurrent_eq w _ _ _ hg]
      simp only
      rw [ih _ (by simpa using hlt) (by simp; omega)]
      simp only [hd, destroyOwner, destroyPolicy, destroyCalls, List.foldl_cons,
        List.append_assoc, List.cons_append, List.nil_append]

theorem eraseAll_eq [CachePolicy P] [CacheLayer O] (w : write_iterator P O) :
    w.eraseAll = some
      { mCachemap :=
          { mMap := []
            mOwner := destroyOwner w.mCachemap.mOwner w.mCachemap.mMap
            mPolicy := destroyPolicy w.mCachemap.mPolicy w.mCachemap.mMap
            calls := w.mCachemap.calls ++ destroyCalls w.mCachemap.mMap }
        mIter := 0 } := by
  unfold eraseAll
  rw [eraseAllLoop_eq _ _ (by simp [MapClass.beginIter]) (by simp)]
  simp [MapClass.beginIter, MapClass.endIter]

end write_iterator

theorem destroyCalls_destroyId (m : MapClass) :
    (destroyCalls m).filterMap Event.destroyId = m.keys := by
  induction m with
  | nil => simp [destroyCalls, MapClass.keys]
  | cons e es ih =>
    simp only [destroyCalls, MapClass.keys, List.map_cons] at ih ⊢
    simp [List.filterMap_cons, Event.destroyId, ih]

theorem destroyCalls_hookId (m : MapClass) :
    (destroyCalls m).filterMap Event.hookId = m.keys := by
  induction m with
  | nil => simp [destroyCalls, MapClass.keys]
  | cons e es ih =>
    simp only [destroyCalls, MapClass.keys, List.map_cons] at ih ⊢
    simp [List.filterMap_cons, Event.hookId, ih]

theorem length_destroyCalls (m : MapClass) : (destroyCalls m).length = 2 * m.length := by
  induction m with
  | nil => simp [destroyCalls]
  | cons e es ih => simp [destroyCalls, ih]; omega

/-! ## Live bookkeeping records -/

theorem live_append (c1 c2 : List Event) :
    live (c1 ++ c2) = c2.foldl liveStep (live c1) := by
  simp [live, List.foldl_append]

theorem foldl_liveStep_destroyCalls (m : MapClass) (l : List Fingerprint) :
    (destroyCalls m).foldl liveStep l = m.keys.foldl (fun acc k => acc.erase k) l := by
  induction m generalizing l with
  | nil => simp [destroyCalls, MapClass.keys]
  | cons e es ih =>
    simp only [destroyCalls, MapClass.keys, List.map_cons, List.foldl_cons, liveStep] at ih ⊢
    exact ih _

theorem foldl_erase_of_perm (ks l : List Fingerprint) (h : l.Perm ks) :
    ks.foldl (fun acc k => acc.erase k) l = [] := by
  induction ks generalizing l with
  | nil => simpa using h.eq_nil
  | cons k ks ih =>
    simp only [List.foldl_cons]
    apply ih
    have := h.erase k
    simpa using this

theorem liveInv_apply {P O : Type} [CachePolicy P] [CacheLayer O] (op : WriteOp)
    (w w1 : write_iterator P O) (hinv : LiveInv w) (h : op.apply w = some w1) :
    LiveInv w1 := by
  obtain ⟨hwf, hlive⟩ := hinv
  cases op with
  | insert id member size =>
    simp only [WriteOp.apply, Option.some.injEq] at h
    subst h
    by_cases hid : id ∈ w.mCachemap.mMap.keys
    · rw [write_iterator.insert_eq_of_mem w id member size hwf hid]
      exact ⟨hwf, hlive⟩
    · rw [write_iterator.insert_eq_of_not_mem w id member size hid]
      refine ⟨MapClass.insert_wf _ hwf _, ?_⟩
      simp only [live_append, List.foldl_cons, List.foldl_nil, liveStep]
      have hp := MapClass.keys_perm _ _ (MapClass.insert_perm_of_not_mem w.mCachemap.mMap id
        (member, (CachePolicy.create w.mCachemap.mPolicy id size).1) hid)
      exact (hlive.cons id).trans hp.symm
  | find id =>
    simp only [WriteOp.apply, Option.some.injEq] at h
    subst h
    exact ⟨hwf, hlive⟩
  | erase =>
    simp only [WriteOp.apply] at h
    cases hg : w.mCachemap.mMap.get? w.mIter with
    | none =>
      rw [write_iterator.erase_eq_none w hg] at h
      exact Option.noConfusion h
    | some x =>
      obtain ⟨k, info, data⟩ := x
      rw [write_iterator.erase_eq w k info data hg, Option.some.injEq] at h
      subst h
      refine ⟨MapClass.wf_erase _ hwf _, ?_⟩
      simp only [live_append, List.foldl_cons, List.foldl_nil, liveStep]
      have hp := MapClass.keys_perm _ _ (MapClass.perm_eraseIdx w.mCachemap.mMap w.mIter _ hg)
      have h2 := (hlive.trans hp).erase k
      simpa [MapClass.keys] using h2
  | eraseAll =>
    simp only [WriteOp.apply] at h
    rw [write_iterator.eraseAll_eq w, Option.some.injEq] at h
    subst h
    refine ⟨by simp [MapClass.WF], ?_⟩
    simp only [live_append, foldl_liveStep_destroyCalls]
    rw [foldl_erase_of_perm _ _ hlive]
    simp [MapClass.keys]

theorem liveInv_runOps {P O : Type} [CachePolicy P] [CacheLayer O] (ops : List WriteOp) :
    ∀ (w w1 : write_iterator P O), LiveInv w → runOps ops w = some w1 → LiveInv w1 := by
  induction ops with
  | nil =>
    intro w w1 hinv h
    simp only [runOps, Option.some.injEq] at h
    subst h
    exact hinv
  | cons op ops ih =>
    intro w w1 hinv h
    simp only [runOps] at h
    cases hop : op.apply w with
    | none =>
      rw [hop] at h
      exact Option.noConfusion h
    | some w2 =>
      rw [hop] at h
      exact ih w2 w1 (liveInv_apply op w w2 hinv hop) h

/-! ## The read iterator -/

theorem MapClass.get?_of_mem (m : MapClass) (hwf : m.WF) (id : Fingerprint) (e : MapEntry)
    (h : (id, e) ∈ m) : m.get? (m.find id) = some (id, e) := by
  obtain ⟨i, hi⟩ := List.mem_iff_get?.1 h
  rw [MapClass.find_of_get? m hwf i id e hi]
  exact hi

namespace read_iterator
variable {P O : Type}

theorem iterate_new (m : CacheMap P O) :
    (new m).iterate = ({ mCachemap := m, mIter := 0 }, 0 != m.mMap.length) := by
  simp [new, iterate, MapClass.endIter, MapClass.beginIter]

theorem iterate_valid (m : CacheMap P O) (i : Nat) (h : i < m.mMap.length) :
    ({ mCachemap := m, mIter := i } : read_iterator P O).iterate =
      ({ mCachemap := m, mIter := i + 1 }, i + 1 != m.mMap.length) := by
  have hne : ¬ i = m.mMap.length := Nat.ne_of_lt h
  simp [iterate, MapClass.endIter, hne]

theorem iterate_iterateTimes (m : CacheMap P O) (i : Nat) (h : i ≤ m.mMap.length) :
    (iterateTimes i (new m)).iterate =
      ({ mCachemap := m, mIter := i }, i != m.mMap.length) := by
  induction i with
  | zero => exact iterate_new m
  | succ i ih =>
    rw [iterateTimes, ih (Nat.le_of_succ_le h)]
    exact iterate_valid m i h

theorem getId_at (m : CacheMap P O) (i : Nat) :
    ({ mCachemap := m, mIter := i } : read_iterator P O).getId = m.mMap.keys.get? i := by
  simp [getId, MapClass.keys]

theorem whileIterate_from (m : CacheMap P O) (fuel : Nat) :
    ∀ (r : read_iterator P O) (j : Nat), j ≤ m.mMap.length → m.mMap.length - j < fuel →
      r.iterate = ({ mCachemap := m, mIter := j }, j != m.mMap.length) →
      whileIterate fuel r = some ((m.mMap.keys.drop j).map some) := by
  induction fuel with
  | zero =>
    intro r j _ hf _
    exact absurd hf (Nat.not_lt_zero _)
  | succ fuel ih =>
    intro r j hj hf hr
    rw [whileIterate, hr]
    by_cases he : j = m.mMap.length
    · have hk : m.mMap.keys.length ≤ j := by simp [MapClass.keys, he]
      simp [he, List.drop_eq_nil_of_le hk, MapClass.keys]
    · have hlt : j < m.mMap.length := by omega
      have hk : j < m.mMap.keys.length := by simpa [MapClass.keys] using hlt
      have hb : (j != m.mMap.length) = true := by simpa using he
      simp only [hb, if_true]
      rw [ih _ (j + 1) hlt (by omega) (iterate_valid m j hlt), getId_at]
      rw [List.get?_eq_get hk]
      simp only [Option.map_some']
      congr 1
      rw [← List.map_cons]
      congr 1
      simp

end read_iterator

/-! ## Claims about `write_iterator::insert` -/

section InsertClaims
variable {P O : Type}

/-- C1: when `id` is not a key of the map, `insert(id, member, size)` returns
true, makes exactly one call on the policy, `create(id, size)`, and leaves the
owner untouched; the new map is the old map plus the one entry
`id -> (member, result of create)`, still in ascending key order, every other
key keeps its entry, and the iterator is valid and positioned on `id`. -/
theorem insert_absent_adds_entry [CachePolicy P] (w : write_iterator P O)
    (id : Fingerprint) (member : CacheInfo) (size : Nat)
    (hwf : w.mCachemap.mMap.WF) (hid : id ∉ w.mCachemap.mMap.keys) :
    (w.insert id member size).2 = true ∧
    (w.insert id member size).1.mCachemap.calls =
      w.mCachemap.calls ++ [Event.create id size] ∧
    (w.insert id member size).1.mCachemap.mPolicy =
      (CachePolicy.create w.mCachemap.mPolicy id size).2 ∧
    (w.insert id member size).1.mCachemap.mOwner = w.mCachemap.mOwner ∧
    (w.insert id member size).1.mCachemap.mMap.WF ∧
    (w.insert id member size).1.mCachemap.mMap.Perm
      ((id, (member, (CachePolicy.create w.mCachemap.mPolicy id size).1)) ::
        w.mCachemap.mMap) ∧
    (w.insert id member size).1.mCachemap.mMap.entry id =
      some (member, (CachePolicy.create w.mCachemap.mPolicy id size).1) ∧
    (∀ k, k ≠ id →
      (w.insert id member size).1.mCachemap.mMap.entry k = w.mCachemap.mMap.entry k) ∧
    (w.insert id member size).1.toBool = true ∧
    (w.insert id member size).1.getId = some id := by
  rw [write_iterator.insert_eq_of_not_mem w id member size hid]
  have hg := MapClass.get?_insert_of_not_mem w.mCachemap.mMap id
    (member, (CachePolicy.create w.mCachemap.mPolicy id size).1) hid
  have hw := MapClass.insert_wf w.mCachemap.mMap hwf
    (id, (member, (CachePolicy.create w.mCachemap.mPolicy id size).1))
  refine ⟨rfl, rfl, rfl, rfl, hw,
    MapClass.insert_perm_of_not_mem _ _ _ hid, ?_, ?_, ?_, ?_⟩
  · exact MapClass.entry_eq_of_get? _ hw _ _ _ hg
  · intro k hk
    exact MapClass.entry_insert_ne _ _ _ _ hk
  · have hlt : (MapClass.insert w.mCachemap.mMap
        (id, (member, (CachePolicy.create w.mCachemap.mPolicy id size).1))).2.1 <
        (MapClass.insert w.mCachemap.mMap
        (id, (member, (CachePolicy.create w.mCachemap.mPolicy id size).1))).1.length := by
      by_contra hge
      rw [List.get?_eq_none.2 (Nat.le_of_not_lt hge)] at hg
      exact Option.noConfusion hg
    simp only [write_iterator.toBool, MapClass.endIter, bne_iff_ne, ne_eq]
    exact Nat.ne_of_lt hlt
  · simp only [write_iterator.getId]
    rw [hg]
    rfl

/-- C1, at a concrete input: key 7 is inserted into the map with keys 2, 5, 9. -/
theorem insert_absent_adds_entry_witness :
    (write_iterator.new exampleMap).mCachemap.mMap.WF ∧
    7 ∉ (write_iterator.new exampleMap).mCachemap.mMap.keys ∧
    ((write_iterator.new exampleMap).insert 7 70 16).2 = true ∧
    ((write_iterator.new exampleMap).insert 7 70 16).1.mCachemap.mMap =
      [(2, (20, 1)), (5, (50, 2)), (7, (70, 4)), (9, (90, 3))] ∧
    ((write_iterator.new exampleMap).insert 7 70 16).1.mCachemap.calls =
      [Event.create 7 16] ∧
    ((write_iterator.new exampleMap).insert 7 70 16).1.getId = some 7 :=
  have h := insert_absent_adds_entry (write_iterator.new exampleMap) 7 70 16
    (by decide) (by decide)
  ⟨by decide, by decide, h.1, by decide, h.2.1, h.2.2.2.2.2.2.2.2.2⟩

/-- C2: in a well-formed map, when `id` is already a key `insert(id, member,
size)` returns false and changes nothing of the map, the policy, the owner or
the calls made (so `create` is not invoked and `member` and `size` are
discarded); the iterator is valid, positioned on `id`, and dereferences to the
entry that was already there.  Consequently `insert` returns true exactly when
`id` was absent. -/
theorem insert_present_is_noop [CachePolicy P] (w : write_iterator P O)
    (id : Fingerprint) (member : CacheInfo) (size : Nat)
    (hwf : w.mCachemap.mMap.WF) :
    (id ∈ w.mCachemap.mMap.keys →
      (w.insert id member size).2 = false ∧
      (w.insert id member size).1.mCachemap = w.mCachemap ∧
      (w.insert id member size).1.toBool = true ∧
      (w.insert id member size).1.getId = some id ∧
      ∃ e, w.mCachemap.mMap.entry id = some e ∧
        (w.insert id member size).1.deref = some e.1 ∧
        (w.insert id member size).1.getPolicyInfo = some e.2) ∧
    ((w.insert id member size).2 = true ↔ id ∉ w.mCachemap.mMap.keys) := by
  constructor
  · intro hid
    rw [write_iterator.insert_eq_of_mem w id member size hwf hid]
    obtain ⟨e, he⟩ := MapClass.get?_find w.mCachemap.mMap id hid
    refine ⟨rfl, rfl, ?_, ?_, e, ?_, ?_, ?_⟩
    · simp only [write_iterator.toBool, MapClass.endIter, bne_iff_ne, ne_eq]
      exact Nat.ne_of_lt ((MapClass.find_lt_iff _ _).2 hid)
    · simp only [write_iterator.getId]
      rw [he]
      rfl
    · exact MapClass.entry_eq_of_get? _ hwf _ _ _ he
    · simp only [write_iterator.deref]
      rw [he]
      rfl
    · simp only [write_iterator.getPolicyInfo]
      rw [he]
      rfl
  · by_cases hid : id ∈ w.mCachemap.mMap.keys
    · rw [write_iterator.insert_eq_of_mem w id member size hwf hid]
      simp [hid]
    · rw [write_iterator.insert_eq_of_not_mem w id member size hid]
      simp [hid]

/-- C2, at a concrete input: key 5 is already in the map with keys 2, 5, 9. -/
theorem insert_present_is_noop_witness :
    (write_iterator.new exampleMap).mCachemap.mMap.WF ∧
    5 ∈ (write_iterator.new exampleMap).mCachemap.mMap.keys ∧
    ((write_iterator.new exampleMap).insert 5 77 16).2 = false ∧
    ((write_iterator.new exampleMap).insert 5 77 16).1.mCachemap = exampleMap ∧
    ((write_iterator.new exampleMap).insert 5 77 16).1.getId = some 5 :=
  have h := (insert_present_is_noop (write_iterator.new exampleMap) 5 77 16
    (by decide)).1 (by decide)
  ⟨by decide, by decide, h.1, h.2.1, h.2.2.2.1⟩

end InsertClaims

/-! ## Claims about `erase`, `eraseAll` and the bookkeeping records -/

section EraseClaims
variable {P O : Type}

/-- C3: on a write iterator positioned on the entry `k -> (info, data)` of a
well-formed map, `erase()` calls `policy.destroy(k, data)` first and the
owner's `destroyCacheEntry(k, info)` second, both with the values of the entry
still in the map, and then removes the entry: `k` is no longer a key, the map
has exactly one entry fewer and is the old map without that entry, every
other key keeps its entry, and the iterator is invalid. -/
theorem erase_removes_current [CachePolicy P] [CacheLayer O] (w : write_iterator P O)
    (k : Fingerprint) (info : CacheInfo) (data : PolicyData)
    (hwf : w.mCachemap.mMap.WF)
    (hpos : w.mCachemap.mMap.get? w.mIter = some (k, (info, data))) :
    ∃ w1, w.erase = some w1 ∧
      w1.mCachemap.calls = w.mCachemap.calls ++
        [Event.destroy k data, Event.destroyCacheEntry k info] ∧
      w1.mCachemap.mPolicy = CachePolicy.destroy w.mCachemap.mPolicy k data ∧
      w1.mCachemap.mOwner = CacheLayer.destroyCacheEntry w.mCachemap.mOwner k info ∧
      k ∉ w1.mCachemap.mMap.keys ∧
      w1.mCachemap.mMap.length + 1 = w.mCachemap.mMap.length ∧
      w.mCachemap.mMap.Perm ((k, (info, data)) :: w1.mCachemap.mMap) ∧
      w1.mCachemap.mMap.WF ∧
      (∀ k1, k1 ≠ k → w1.mCachemap.mMap.entry k1 = w.mCachemap.mMap.entry k1) ∧
      w1.toBool = false := by
  refine ⟨_, write_iterator.erase_eq w k info data hpos, rfl, rfl, rfl, ?_, ?_, ?_, ?_, ?_, ?_⟩
  · exact MapClass.not_mem_keys_erase _ hwf _ _ _ hpos
  · have := (MapClass.perm_eraseIdx w.mCachemap.mMap w.mIter _ hpos).length_eq
    simpa using this.symm
  · exact MapClass.perm_eraseIdx _ _ _ hpos
  · exact MapClass.wf_erase _ hwf _
  · intro k1 hk1
    exact MapClass.entry_erase_ne _ _ _ _ hpos k1 hk1
  · simp [write_iterator.toBool, MapClass.endIter]

/-- C3, at a concrete input: the entry of key 5 is erased from the map with
keys 2, 5, 9. -/
theorem erase_removes_current_witness :
    exampleMap.mMap.WF ∧
    exampleMap.mMap.get? ((write_iterator.new exampleMap).find 5).1.mIter =
      some (5, (50, 2)) ∧
    ∃ w1, ((write_iterator.new exampleMap).find 5).1.erase = some w1 ∧
      w1.mCachemap.calls = [Event.destroy 5 2, Event.destroyCacheEntry 5 50] ∧
      5 ∉ w1.mCachemap.mMap.keys ∧
      w1.mCachemap.mMap.length + 1 = 3 ∧
      w1.toBool = false :=
  have h := erase_removes_current ((write_iterator.new exampleMap).find 5).1 5 50 2
    (by decide) (by decide)
  ⟨by decide, by decide, h.choose, h.choose_spec.1, h.choose_spec.2.1,
    h.choose_spec.2.2.2.2.1, h.choose_spec.2.2.2.2.2.1,
    h.choose_spec.2.2.2.2.2.2.2.2.2⟩

/-- C4: on a well-formed map with `n` entries `eraseAll()` returns, having
walked the entries in iteration order, which is ascending fingerprint order:
the calls it makes are, entry by entry, `policy.destroy` and then
`destroyCacheEntry` with the values of that entry; the ids of the `destroy`
calls, and of the `destroyCacheEntry` calls, are exactly the keys of the map
in order (so `n` calls of each, one per entry, none for an absent key);
afterwards the map is empty and the iterator is invalid. -/
theorem eraseAll_drains_in_order [CachePolicy P] [CacheLayer O] (w : write_iterator P O)
    (hwf : w.mCachemap.mMap.WF) :
    ∃ w1, w.eraseAll = some w1 ∧
      w1.mCachemap.mMap = [] ∧
      w1.toBool = false ∧
      w1.mCachemap.calls = w.mCachemap.calls ++ destroyCalls w.mCachemap.mMap ∧
      w1.mCachemap.mPolicy = destroyPolicy w.mCachemap.mPolicy w.mCachemap.mMap ∧
      w1.mCachemap.mOwner = destroyOwner w.mCachemap.mOwner w.mCachemap.mMap ∧
      (destroyCalls w.mCachemap.mMap).filterMap Event.destroyId = w.mCachemap.mMap.keys ∧
      (destroyCalls w.mCachemap.mMap).filterMap Event.hookId = w.mCachemap.mMap.keys ∧
      (destroyCalls w.mCachemap.mMap).length = 2 * w.mCachemap.mMap.length ∧
      w.mCachemap.mMap.keys.length = w.mCachemap.mMap.length ∧
      w.mCachemap.mMap.keys.Pairwise (· < ·) := by
  refine ⟨_, write_iterator.eraseAll_eq w, rfl, ?_, rfl, rfl, rfl,
    destroyCalls_destroyId _, destroyCalls_hookId _, length_destroyCalls _, ?_,
    MapClass.wf_keys_sorted _ hwf⟩
  · simp [write_iterator.toBool, MapClass.endIter]
  · simp [MapClass.keys]

/-- C4, at a concrete input: the map with keys 2, 5, 9 is drained. -/
theorem eraseAll_drains_in_order_witness :
    exampleMap.mMap.WF ∧
    ∃ w1, (write_iterator.new exampleMap).eraseAll = some w1 ∧
      w1.mCachemap.mMap = [] ∧
      w1.toBool = false ∧
      w1.mCachemap.calls =
        [Event.destroy 2 1, Event.destroyCacheEntry 2 20,
         Event.destroy 5 2, Event.destroyCacheEntry 5 50,
         Event.destroy 9 3, Event.destroyCacheEntry 9 90] :=
  have h := eraseAll_drains_in_order (write_iterator.new exampleMap) (by decide)
  ⟨by decide, h.choose, h.choose_spec.1, h.choose_spec.2.1, h.choose_spec.2.2.1,
    h.choose_spec.2.2.2.1.trans (by decide)⟩

/-- C5: after any sequence of write-iterator operations (`insert`, `find`,
`erase` on a position that can be dereferenced, `eraseAll`) applied to an
initially empty `CacheMap`, the ids with a live bookkeeping record (created by
`policy.create` and not destroyed by `policy.destroy` since) are exactly the
keys of the map: every key has exactly one live record and an absent key has
none.  Every prefix of such a sequence is such a sequence, so this holds after
each operation. -/
theorem live_records_are_keys [CachePolicy P] [CacheLayer O] (owner : O) (policy : P)
    (ops : List WriteOp) (w : write_iterator P O)
    (h : runOps ops (write_iterator.new (CacheMap.new owner policy)) = some w) :
    w.mCachemap.mMap.WF ∧
    (live w.mCachemap.calls).Perm w.mCachemap.mMap.keys ∧
    (∀ k, k ∈ live w.mCachemap.calls ↔ k ∈ w.mCachemap.mMap.keys) ∧
    (∀ k, (live w.mCachemap.calls).count k =
      if k ∈ w.mCachemap.mMap.keys then 1 else 0) := by
  have hinit : LiveInv (write_iterator.new (CacheMap.new owner policy)) := by
    simp [LiveInv, write_iterator.new, CacheMap.new, MapClass.WF, live, MapClass.keys]
  obtain ⟨hwf, hlive⟩ := liveInv_runOps ops _ w hinit h
  refine ⟨hwf, hlive, fun k => hlive.mem_iff, fun k => ?_⟩
  rw [hlive.count_eq]
  by_cases hk : k ∈ w.mCachemap.mMap.keys
  · rw [if_pos hk]
    exact List.count_eq_one_of_mem (MapClass.wf_nodup _ hwf) hk
  · rw [if_neg hk]
    exact List.count_eq_zero_of_not_mem hk

/-- C5, at a concrete input: nine operations on an empty map, ending with the
keys 1 and 4, whose records are the live ones. -/
theorem live_records_are_keys_witness :
    runOps exampleOps (write_iterator.new
      (CacheMap.new { destroyed := 0 } { handles := 0, touched := 0 })) =
        some exampleFinal ∧
    exampleFinal.mCachemap.mMap.keys = [1, 4] ∧
    (live exampleFinal.mCachemap.calls).Perm exampleFinal.mCachemap.mMap.keys :=
  have h0 : runOps exampleOps (write_iterator.new
      (CacheMap.new ({ destroyed := 0 } : CountingLayer)
        ({ handles := 0, touched := 0 } : CountingPolicy))) = some exampleFinal := by
    rfl
  ⟨h0, rfl, (live_records_are_keys _ _ exampleOps exampleFinal h0).2.1⟩

end EraseClaims

/-! ## Claims about `find`, `use` and `iterate` -/

section ReadClaims
variable {P O : Type}

/-- C6: on a well-formed map `find(id)`, on a read iterator and on a write
iterator alike, returns true exactly when `id` is a key; the map, policy,
owner and calls are unchanged; the value returned is the validity of the
iterator afterwards (so a failed find leaves it invalid), and after a
successful find `getId()` is `id` and the iterator dereferences to the payload
and policy data of whichever entry the map holds for `id`. -/
theorem find_positions_on_key (r : read_iterator P O) (w : write_iterator P O)
    (id : Fingerprint) (hr : r.mCachemap.mMap.WF) (hw : w.mCachemap.mMap.WF) :
    (((r.find id).2 = true ↔ id ∈ r.mCachemap.mMap.keys) ∧
      (r.find id).1.mCachemap = r.mCachemap ∧
      (r.find id).1.toBool = (r.find id).2 ∧
      (id ∈ r.mCachemap.mMap.keys → (r.find id).1.getId = some id) ∧
      (∀ e, (id, e) ∈ r.mCachemap.mMap →
        (r.find id).1.deref = some e.1 ∧ (r.find id).1.getPolicyInfo = some e.2)) ∧
    (((w.find id).2 = true ↔ id ∈ w.mCachemap.mMap.keys) ∧
      (w.find id).1.mCachemap = w.mCachemap ∧
      (w.find id).1.toBool = (w.find id).2 ∧
      (id ∈ w.mCachemap.mMap.keys → (w.find id).1.getId = some id) ∧
      (∀ e, (id, e) ∈ w.mCachemap.mMap →
        (w.find id).1.deref = some e.1 ∧ (w.find id).1.getPolicyInfo = some e.2)) := by
  constructor
  · refine ⟨?_, rfl, rfl, ?_, ?_⟩
    · simp only [read_iterator.find, read_iterator.toBool, MapClass.endIter, bne_iff_ne, ne_eq]
      rw [MapClass.find_eq_length_iff]
      exact not_not
    · intro hid
      obtain ⟨e, he⟩ := MapClass.get?_find r.mCachemap.mMap id hid
      simp only [read_iterator.find, read_iterator.getId]
      rw [he]
      rfl
    · intro e he
      have hg := MapClass.get?_of_mem _ hr id e he
      simp only [read_iterator.find, read_iterator.deref, read_iterator.getPolicyInfo]
      rw [hg]
      exact ⟨rfl, rfl⟩
  · refine ⟨?_, rfl, rfl, ?_, ?_⟩
    · simp only [write_iterator.find, write_iterator.toBool, MapClass.endIter, bne_iff_ne,
        ne_eq]
      rw [MapClass.find_eq_length_iff]
      exact not_not
    · intro hid
      obtain ⟨e, he⟩ := MapClass.get?_find w.mCachemap.mMap id hid
      simp only [write_iterator.find, write_iterator.getId]
      rw [he]
      rfl
    · intro e he
      have hg := MapClass.get?_of_mem _ hw id e he
      simp only [write_iterator.find, write_iterator.deref, write_iterator.getPolicyInfo]
      rw [hg]
      exact ⟨rfl, rfl⟩

/-- C6, at a concrete input: key 5 is found and key 6 is not, in the map with
keys 2, 5, 9. -/
theorem find_positions_on_key_witness :
    exampleMap.mMap.WF ∧
    ((read_iterator.new exampleMap).find 5).2 = true ∧
    ((read_iterator.new exampleMap).find 5).1.deref = some 50 ∧
    ((write_iterator.new exampleMap).find 5).1.getId = some 5 ∧
    ((write_iterator.new exampleMap).find 6).2 = false :=
  have h5 := find_positions_on_key (read_iterator.new exampleMap)
    (write_iterator.new exampleMap) 5 (by decide) (by decide)
  have h6 := find_positions_on_key (read_iterator.new exampleMap)
    (write_iterator.new exampleMap) 6 (by decide) (by decide)
  ⟨by decide, h5.1.1.2 (by decide), (h5.1.2.2.2.2 (50, 2) (by decide)).1,
    h5.2.2.2.2.1 (by decide),
    Bool.eq_false_iff.2 (fun ht => absurd (h6.2.1.1 ht) (by decide))⟩

/-- C7: on a read iterator positioned on the entry `id -> (info, data)`,
`use()` makes one call, `policy.use(id, data)`, whose only effect is on the
policy: the map (its keys, payloads and stored policy data), the owner and the
position of the iterator are the same before and after, for every map and
every policy. -/
theorem read_use_touches_policy_only [CachePolicy P] (r : read_iterator P O)
    (id : Fingerprint) (info : CacheInfo) (data : PolicyData)
    (hpos : r.mCachemap.mMap.get? r.mIter = some (id, (info, data))) :
    ∃ r1, r.use = some r1 ∧
      r1.mCachemap.mMap = r.mCachemap.mMap ∧
      r1.mCachemap.mOwner = r.mCachemap.mOwner ∧
      r1.mIter = r.mIter ∧
      r1.mCachemap.mPolicy = CachePolicy.use r.mCachemap.mPolicy id data ∧
      r1.mCachemap.calls = r.mCachemap.calls ++ [Event.use id data] := by
  refine ⟨{ r with mCachemap := { r.mCachemap with
      mPolicy := CachePolicy.use r.mCachemap.mPolicy id data
      calls := r.mCachemap.calls ++ [Event.use id data] } }, ?_, rfl, rfl, rfl, rfl, rfl⟩
  unfold read_iterator.use read_iterator.getId read_iterator.getPolicyInfo
  rw [hpos]
  rfl

/-- C7, at a concrete input: the entry of key 9 is used through a reader. -/
theorem read_use_touches_policy_only_witness :
    exampleMap.mMap.get? ((read_iterator.new exampleMap).find 9).1.mIter =
      some (9, (90, 3)) ∧
    ∃ r1, ((read_iterator.new exampleMap).find 9).1.use = some r1 ∧
      r1.mCachemap.mMap = exampleMap.mMap ∧
      r1.mCachemap.calls = [Event.use 9 3] :=
  have h := read_use_touches_policy_only ((read_iterator.new exampleMap).find 9).1 9 90 3
    (by decide)
  ⟨by decide, h.choose, h.choose_spec.1, h.choose_spec.2.1, h.choose_spec.2.2.2.2.2⟩

/-- C8: on a well-formed map with `n` entries and a fresh read iterator, call
`i + 1` of `iterate()` for `i < n` returns true and positions the iterator on
entry `i` of the ascending key order, leaving the map as it was; call `n + 1`
returns false and leaves the iterator invalid (on an empty map that is the
first call); and the loop `while (it.iterate())` ends, for any bound above
`n` on the calls allowed, after visiting exactly the keys of the map, each
once, in ascending order, that is after `n` turns. -/
theorem iterate_is_linear_scan (m : CacheMap P O) (hwf : m.mMap.WF) :
    (∀ i, i < m.mMap.length →
      ((read_iterator.new m).iterateTimes i).iterate.2 = true ∧
      ((read_iterator.new m).iterateTimes i).iterate.1.mIter = i ∧
      ((read_iterator.new m).iterateTimes i).iterate.1.mCachemap = m ∧
      ((read_iterator.new m).iterateTimes i).iterate.1.getId = m.mMap.keys.get? i ∧
      (m.mMap.keys.get? i).isSome = true) ∧
    ((read_iterator.new m).iterateTimes m.mMap.length).iterate.2 = false ∧
    ((read_iterator.new m).iterateTimes m.mMap.length).iterate.1.toBool = false ∧
    m.mMap.keys.Pairwise (· < ·) ∧
    m.mMap.keys.length = m.mMap.length ∧
    (∀ fuel, m.mMap.length < fuel →
      (read_iterator.new m).whileIterate fuel = some (m.mMap.keys.map some)) := by
  refine ⟨fun i hi => ?_, ?_, ?_, MapClass.wf_keys_sorted _ hwf, ?_, fun fuel hf => ?_⟩
  · have h := read_iterator.iterate_iterateTimes m i (Nat.le_of_lt hi)
    show (read_iterator.iterateTimes i (read_iterator.new m)).iterate.2 = true ∧ _
    rw [h]
    have hne : ¬ i = m.mMap.length := Nat.ne_of_lt hi
    refine ⟨by simpa using hne, rfl, rfl, read_iterator.getId_at m i, ?_⟩
    have hk : i < m.mMap.keys.length := by simpa [MapClass.keys] using hi
    rw [List.get?_eq_get hk]
    rfl
  · show (read_iterator.iterateTimes m.mMap.length (read_iterator.new m)).iterate.2 = false
    rw [read_iterator.iterate_iterateTimes m _ (Nat.le_refl _)]
    simp
  · show (read_iterator.iterateTimes m.mMap.length
      (read_iterator.new m)).iterate.1.toBool = false
    rw [read_iterator.iterate_iterateTimes m _ (Nat.le_refl _)]
    simp [read_iterator.toBool, MapClass.endIter]
  · simp [MapClass.keys]
  · have h := read_iterator.whileIterate_from m fuel (read_iterator.new m) 0
      (Nat.zero_le _) (by omega) (read_iterator.iterate_new m)
    simpa using h

/-- C8, at a concrete input: the scan of the map with keys 2, 5, 9. -/
theorem iterate_is_linear_scan_witness :
    exampleMap.mMap.WF ∧
    ((read_iterator.new exampleMap).iterateTimes 1).iterate.1.getId = some 5 ∧
    ((read_iterator.new exampleMap).iterateTimes 3).iterate.2 = false ∧
    (read_iterator.new exampleMap).whileIterate 4 = some [some 2, some 5, some 9] :=
  have h := iterate_is_linear_scan exampleMap (by decide)
  ⟨by decide, (h.1 1 (by decide)).2.2.2.1, h.2.1, h.2.2.2.2.2 4 (by decide)⟩

end ReadClaims

/-! ## HTTP name lookup: stripping white space -/

theorem remove_if_eq_filter (p : Nat → Bool) (l : StdString) :
    remove_if p l = l.filter (fun c => !p c) := by
  induction l with
  | nil => rfl
  | cons c cs ih =>
    cases hp : p c <;> simp [remove_if, hp, ih]

theorem remove_if_sublist (p : Nat → Bool) (l : StdString) : (remove_if p l).Sublist l := by
  rw [remove_if_eq_filter]
  exact List.filter_sublist l

theorem not_of_mem_remove_if (p : Nat → Bool) (l : StdString) (c : Nat)
    (h : c ∈ remove_if p l) : p c = false := by
  rw [remove_if_eq_filter, List.mem_filter] at h
  simpa using h.2

theorem remove_if_idem (p : Nat → Bool) (l : StdString) :
    remove_if p (remove_if p l) = remove_if p l := by
  rw [remove_if_eq_filter, remove_if_eq_filter, List.filter_filter]
  simp

/-! ## Claims about `HTTPDownloadHandler::nameCallback` -/

section NameLookupClaims
variable {Context Uri : Type}

set_option maxRecDepth 8000

open HTTPDownloadHandler

/-- C9, as amended: for a successful name-lookup response with body `body`
for which hex-decoding the filename of the stripped body, resolved against the
context of the request URI, yields a fingerprint `fp`, `nameCallback` invokes
the callback exactly once, with `fp`, the stripped body and success = true.
The stripped body is the body without its white-space bytes: it holds no
white space, keeps the other bytes in their order, and stripping it again
changes nothing. -/
theorem nameCallback_success_reports_stripped_uri (env : NameLookupEnv Context Uri)
    (requestContext : Context) (body : StdString) (fp : Fingerprint)
    (hfp : env.convertFromHex
      (env.filename (env.resolve requestContext (remove_if IsSpace body))) = some fp) :
    nameCallback env requestContext body true =
      some [{ fingerprint := fp, uri := remove_if IsSpace body, success := true }] ∧
    (∀ c ∈ remove_if IsSpace body, isspace c = false) ∧
    remove_if IsSpace body = body.filter (fun c => !isspace c) ∧
    (remove_if IsSpace body).Sublist body ∧
    remove_if IsSpace (remove_if IsSpace body) = remove_if IsSpace body := by
  refine ⟨?_, fun c hc => not_of_mem_remove_if IsSpace body c hc,
    remove_if_eq_filter IsSpace body, remove_if_sublist _ _, remove_if_idem _ _⟩
  simp only [nameCallback, if_true]
  rw [hfp]

/-- C9 as amended, at a concrete input: a body with white space before,
inside and after a URI whose filename is 64 hex characters. -/
theorem nameCallback_success_reports_stripped_uri_witness :
    raisingEnv.convertFromHex (raisingEnv.filename
      (raisingEnv.resolve exampleContext (remove_if IsSpace goodBody))) =
        some goodFingerprint ∧
    nameCallback raisingEnv exampleContext goodBody true =
      some [{ fingerprint := goodFingerprint, uri := goodUri, success := true }] :=
  have hs : remove_if IsSpace goodBody = goodUri := by decide
  have hf : raisingEnv.convertFromHex (raisingEnv.filename
      (raisingEnv.resolve exampleContext (remove_if IsSpace goodBody))) =
        some goodFingerprint := by
    rw [hs]
    rfl
  ⟨hf, hs ▸ (nameCallback_success_reports_stripped_uri raisingEnv exampleContext
    goodBody goodFingerprint hf).1⟩

/-- C9 fails for a successful response whose filename does not decode, when
the decoder raises: on the body `mhash:///zz` the exception leaves
`nameCallback` before the callback is reached, so the callback is invoked
zero times, not once. -/
theorem nameCallback_raising_decoder_counterexample :
    remove_if IsSpace badBody = bytes "mhash:///zz" ∧
    raisingEnv.convertFromHex (raisingEnv.filename
      (raisingEnv.resolve exampleContext (remove_if IsSpace badBody))) = none ∧
    nameCallback raisingEnv exampleContext badBody true = none ∧
    nameCallback raisingEnv exampleContext badBody true ≠
      some [{ fingerprint := 0, uri := remove_if IsSpace badBody, success := true }] := by
  refine ⟨by decide, by decide, by decide, by decide⟩

/-- C10, as amended: a successful name-lookup response never yields the
failure sentinel, whatever its filename.  The callback is invoked exactly
once, with what `convertFromHex` returned for the filename, the stripped body
and success = true, unless `convertFromHex` raises, and then the callback is
not invoked at all. -/
theorem nameCallback_success_never_sentinel (env : NameLookupEnv Context Uri)
    (requestContext : Context) (body : StdString) :
    nameCallback env requestContext body true =
      (env.convertFromHex
        (env.filename (env.resolve requestContext (remove_if IsSpace body)))).map
        (fun fp => [{ fingerprint := fp, uri := remove_if IsSpace body, success := true }]) ∧
    nameCallback env requestContext body true ≠
      some [{ fingerprint := 0, uri := [], success := false }] := by
  simp only [nameCallback, if_true]
  cases env.convertFromHex
      (env.filename (env.resolve requestContext (remove_if IsSpace body))) with
  | none => simp
  | some fp => simp

/-- C10 fails on the body `mhash:///zz`, whose filename `zz` is not a hex
fingerprint: with a decoder that raises the callback is not invoked, with a
decoder that returns the zero fingerprint it receives success = true and the
stripped body; in neither case the sentinel `(0, "", false)`. -/
theorem nameCallback_bad_hex_counterexample :
    convertFromHex (lastSegment (remove_if IsSpace badBody)) = none ∧
    nameCallback raisingEnv exampleContext badBody true = none ∧
    nameCallback zeroEnv exampleContext badBody true =
      some [{ fingerprint := 0, uri := bytes "mhash:///zz", success := true }] ∧
    nameCallback raisingEnv exampleContext badBody true ≠
      some [{ fingerprint := 0, uri := [], success := false }] ∧
    nameCallback zeroEnv exampleContext badBody true ≠
      some [{ fingerprint := 0, uri := [], success := false }] := by
  refine ⟨by decide, by decide, by decide, by decide, by decide⟩

end NameLookupClaims

/-! ## Allocation, round trips and erasing key by key -/

theorem MapClass.erase_insert_of_not_mem (m : MapClass) (id : Fingerprint) (e : MapEntry)
    (h : id ∉ MapClass.keys m) :
    MapClass.erase (MapClass.insert m (id, e)).1 (MapClass.insert m (id, e)).2.1 = m := by
  unfold MapClass.erase
  induction m with
  | nil => simp [MapClass.insert]
  | cons x xs ih =>
    rw [MapClass.not_mem_keys_cons] at h
    rw [MapClass.insert_cons]
    by_cases h1 : id < x.1
    · simp [h1]
    · simp only [h1, h.1, if_false]
      simp only [List.eraseIdx_cons_succ]
      rw [ih h.2]

theorem destroyCalls_append (m1 m2 : MapClass) :
    destroyCalls (m1 ++ m2) = destroyCalls m1 ++ destroyCalls m2 := by
  induction m1 with
  | nil => rfl
  | cons e es ih => simp [destroyCalls, ih]

theorem write_iterator.find_erase_eq {P O : Type} [CachePolicy P] [CacheLayer O]
    (w : write_iterator P O) (k : Fingerprint) (info : CacheInfo) (data : PolicyData)
    (h : w.mCachemap.mMap.get? (w.mCachemap.mMap.find k) = some (k, (info, data))) :
    (w.find k).1.erase = some
      { mCachemap :=
          { mMap := MapClass.erase w.mCachemap.mMap (w.mCachemap.mMap.find k)
            mOwner := CacheLayer.destroyCacheEntry w.mCachemap.mOwner k info
            mPolicy := CachePolicy.destroy w.mCachemap.mPolicy k data
            calls := w.mCachemap.calls ++
              [Event.destroy k data, Event.destroyCacheEntry k info] }
        mIter := (MapClass.erase w.mCachemap.mMap (w.mCachemap.mMap.find k)).length } :=
  write_iterator.erase_eq (w.find k).1 k info data h

theorem write_iterator.eraseEach_keys {P O : Type} [CachePolicy P] [CacheLayer O]
    (m : MapClass) :
    ∀ w : write_iterator P O, w.mCachemap.mMap = m → m ≠ [] →
      w.eraseEach (MapClass.keys m) = some
        { mCachemap :=
            { mMap := []
              mOwner := destroyOwner w.mCachemap.mOwner m
              mPolicy := destroyPolicy w.mCachemap.mPolicy m
              calls := w.mCachemap.calls ++ destroyCalls m }
          mIter := 0 } := by
  induction m with
  | nil => intro w _ hne; exact absurd rfl hne
  | cons x xs ih =>
    intro w hw _
    have hg : w.mCachemap.mMap.get? (w.mCachemap.mMap.find x.1) =
        some (x.1, (x.2.1, x.2.2)) := by
      rw [hw, MapClass.find_cons]
      simp
    have hm : MapClass.erase w.mCachemap.mMap (w.mCachemap.mMap.find x.1) = xs := by
      rw [hw, MapClass.find_cons]
      simp [MapClass.erase]
    simp only [MapClass.keys, List.map_cons, write_iterator.eraseEach]
    rw [write_iterator.find_erase_eq w x.1 x.2.1 x.2.2 hg, hm]
    simp only
    cases xs with
    | nil => simp [write_iterator.eraseEach, destroyOwner, destroyPolicy, destroyCalls]
    | cons y ys =>
      have := ih ⟨⟨y :: ys, CacheLayer.destroyCacheEntry w.mCachemap.mOwner x.1 x.2.1,
        CachePolicy.destroy w.mCachemap.mPolicy x.1 x.2.2,
        w.mCachemap.calls ++ [Event.destroy x.1 x.2.2, Event.destroyCacheEntry x.1 x.2.1]⟩,
        (y :: ys).length⟩ rfl (by simp)
      simp only [MapClass.keys] at this
      rw [this]
      simp [destroyOwner, destroyPolicy, destroyCalls]

theorem allocateSpaceLoop_evicts {P O : Type} [EvictingPolicy P] [CacheLayer O]
    (required : Nat) (fuel : Nat) :
    ∀ (w w1 : write_iterator P O) (b : Bool), w.mCachemap.mMap.WF →
      allocateSpaceLoop required fuel w = some (b, w1) →
      ∃ evicted : MapClass,
        w.mCachemap.mMap.Perm (evicted ++ w1.mCachemap.mMap) ∧
        w1.mCachemap.mMap.Sublist w.mCachemap.mMap ∧
        w1.mCachemap.mMap.WF ∧
        w1.mCachemap.calls = w.mCachemap.calls ++ destroyCalls evicted ∧
        w1.mCachemap.mPolicy = destroyPolicy w.mCachemap.mPolicy evicted ∧
        w1.mCachemap.mOwner = destroyOwner w.mCachemap.mOwner evicted ∧
        b = EvictingPolicy.granted w1.mCachemap.mPolicy required := by
  induction fuel with
  | zero =>
    intro w w1 b _ h
    simp [allocateSpaceLoop] at h
  | succ fuel ih =>
    intro w w1 b hwf h
    rw [allocateSpaceLoop] at h
    cases hv : EvictingPolicy.victim w.mCachemap.mPolicy required with
    | none =>
      rw [hv] at h
      simp only [Option.some.injEq, Prod.mk.injEq] at h
      obtain ⟨hb, hw⟩ := h
      subst hw
      exact ⟨[], by simp, List.Sublist.refl _, hwf, by simp [destroyCalls],
        by simp [destroyPolicy], by simp [destroyOwner], hb.symm⟩
    | some id =>
      rw [hv] at h
      simp only at h
      cases hg : w.mCachemap.mMap.get? (w.mCachemap.mMap.find id) with
      | none =>
        rw [write_iterator.erase_eq_none (w.find id).1 hg] at h
        exact Option.noConfusion h
      | some x =>
        obtain ⟨k, info, data⟩ := x
        rw [write_iterator.erase_eq (w.find id).1 k info data hg] at h
        simp only at h
        obtain ⟨ev, hp, hs, hw1, hc, hpol, hown, hb⟩ :=
          ih _ w1 b (MapClass.wf_erase _ hwf _) h
        simp only at hp hs hc hpol hown
        refine ⟨(k, (info, data)) :: ev, ?_, ?_, hw1, ?_, ?_, ?_, hb⟩
        · exact (MapClass.perm_eraseIdx _ _ _ hg).trans (hp.cons _)
        · exact hs.trans (List.eraseIdx_sublist _ _)
        · rw [hc]
          simp [destroyCalls, write_iterator.find]
        · rw [hpol]
          simp [destroyPolicy, write_iterator.find]
        · rw [hown]
          simp [destroyOwner, write_iterator.find]

/-! ## Claims about the failed lookup, `alloc`, round trips and the destructor -/

section AllocClaims
variable {P O Context Uri : Type}

/-- C11: when the HTTP request of a name lookup fails (success = false),
`nameCallback` invokes the callback exactly once, with the zero fingerprint,
the empty string and false, whatever data was received and whatever the
collaborators do. -/
theorem nameCallback_failure_reports_sentinel (env : NameLookupEnv Context Uri)
    (requestContext : Context) (data : StdString) :
    HTTPDownloadHandler.nameCallback env requestContext data false =
      some [{ fingerprint := 0, uri := [], success := false }] := by
  simp [HTTPDownloadHandler.nameCallback]

/-- C17: the two `alloc` overloads agree.  `alloc(required)` is
`alloc(required, w)` on a freshly constructed write iterator `w`, in the value
returned and in the map left behind, and both are the call
`policy.allocateSpace(required, writer)`.  When `alloc` returns, the map it
leaves is the old map without the evicted entries, everything else in place
and in order, and the calls it made are `policy.destroy` followed by
`destroyCacheEntry` for each evicted entry, with that entry's values. -/
theorem alloc_overloads_agree [EvictingPolicy P] [CacheLayer O] (m : CacheMap P O)
    (required : Nat) (hwf : m.mMap.WF) :
    m.alloc required =
      (CacheMap.allocWith required (write_iterator.new m)).map
        (fun r => (r.1, r.2.mCachemap)) ∧
    (∀ w : write_iterator P O, CacheMap.allocWith required w = allocateSpace required w) ∧
    (∀ b m1, m.alloc required = some (b, m1) →
      ∃ evicted : MapClass,
        m.mMap.Perm (evicted ++ m1.mMap) ∧
        m1.mMap.Sublist m.mMap ∧
        m1.mMap.WF ∧
        m1.calls = m.calls ++ destroyCalls evicted ∧
        m1.mPolicy = destroyPolicy m.mPolicy evicted ∧
        m1.mOwner = destroyOwner m.mOwner evicted ∧
        b = EvictingPolicy.granted m1.mPolicy required) := by
  refine ⟨rfl, fun w => rfl, fun b m1 h => ?_⟩
  simp only [CacheMap.alloc, Option.map_eq_some', Prod.mk.injEq] at h
  obtain ⟨⟨b1, w1⟩, hr, hb, hm⟩ := h
  simp only at hb hm
  subst hb hm
  exact allocateSpaceLoop_evicts required _ (write_iterator.new m) w1 b1 hwf hr

/-- C17, at a concrete input: 600 bytes are asked of an LRU policy with budget
1000 holding three entries of 300 bytes; keys 5 and 9 are evicted. -/
theorem alloc_overloads_agree_witness :
    lruMap.mMap.WF ∧
    lruMap.alloc 600 = some (true, lruMapAfter) ∧
    ∃ evicted : MapClass,
      lruMap.mMap.Perm (evicted ++ lruMapAfter.mMap) ∧
      lruMapAfter.calls = lruMap.calls ++ destroyCalls evicted :=
  have h0 : lruMap.alloc 600 = some (true, lruMapAfter) := by rfl
  have h := (alloc_overloads_agree lruMap 600 (by decide)).2.2 true lruMapAfter h0
  ⟨by decide, h0, h.choose, h.choose_spec.1, h.choose_spec.2.2.2.1⟩

/-- C18: when `id` is not a key, `insert(id, member, size)` followed by
`erase()` on the same write iterator returns and leaves the map equal to the
map before the insert; the calls made are `policy.create(id, size)`, then
`policy.destroy` with the data `create` returned, then `destroyCacheEntry`
with `member`, each once, and the iterator is invalid. -/
theorem insert_then_erase_round_trip [CachePolicy P] [CacheLayer O]
    (w : write_iterator P O) (id : Fingerprint) (member : CacheInfo) (size : Nat)
    (hid : id ∉ w.mCachemap.mMap.keys) :
    ∃ w2, (w.insert id member size).1.erase = some w2 ∧
      w2.mCachemap.mMap = w.mCachemap.mMap ∧
      w2.mCachemap.calls = w.mCachemap.calls ++
        [Event.create id size,
         Event.destroy id (CachePolicy.create w.mCachemap.mPolicy id size).1,
         Event.destroyCacheEntry id member] ∧
      w2.mCachemap.mPolicy =
        CachePolicy.destroy (CachePolicy.create w.mCachemap.mPolicy id size).2 id
          (CachePolicy.create w.mCachemap.mPolicy id size).1 ∧
      w2.mCachemap.mOwner = CacheLayer.destroyCacheEntry w.mCachemap.mOwner id member ∧
      w2.toBool = false := by
  have hg := MapClass.get?_insert_of_not_mem w.mCachemap.mMap id
    (member, (CachePolicy.create w.mCachemap.mPolicy id size).1) hid
  have he := MapClass.erase_insert_of_not_mem w.mCachemap.mMap id
    (member, (CachePolicy.create w.mCachemap.mPolicy id size).1) hid
  rw [write_iterator.insert_eq_of_not_mem w id member size hid]
  refine ⟨_, write_iterator.erase_eq _ id member
    (CachePolicy.create w.mCachemap.mPolicy id size).1 hg, he, ?_, rfl, rfl, ?_⟩
  · simp
  · simp [write_iterator.toBool, MapClass.endIter]

/-- C18, at a concrete input: key 7 is inserted into the map with keys 2, 5, 9
and erased again. -/
theorem insert_then_erase_round_trip_witness :
    7 ∉ (write_iterator.new exampleMap).mCachemap.mMap.keys ∧
    ∃ w2, ((write_iterator.new exampleMap).insert 7 70 16).1.erase = some w2 ∧
      w2.mCachemap.mMap = exampleMap.mMap ∧
      w2.mCachemap.calls =
        [Event.create 7 16, Event.destroy 7 4, Event.destroyCacheEntry 7 70] :=
  have h := insert_then_erase_round_trip (write_iterator.new exampleMap) 7 70 16 (by decide)
  ⟨by decide, h.choose, h.choose_spec.1, h.choose_spec.2.1, h.choose_spec.2.2.1⟩

/-- C19: for a well-formed map, `find(k)` followed by `erase()` for each key
`k` in ascending order ends in the same write iterator as `eraseAll()`: the
same calls, `policy.destroy` and then `destroyCacheEntry` for each entry in
ascending key order, the same policy and owner, the empty map and an invalid
iterator.  `eraseAll()` does the same from any position, and the destructor
`~CacheMap()` performs exactly this `eraseAll()`, so it leaves the empty map
after both callbacks were made for every entry. -/
theorem eraseAll_is_erase_each [CachePolicy P] [CacheLayer O] (m : CacheMap P O)
    (hwf : m.mMap.WF) :
    (write_iterator.new m).eraseEach m.mMap.keys = (write_iterator.new m).eraseAll ∧
    (∀ i, ({ mCachemap := m, mIter := i } : write_iterator P O).eraseAll =
      (write_iterator.new m).eraseAll) ∧
    (write_iterator.new m).eraseAll = some
      { mCachemap :=
          { mMap := []
            mOwner := destroyOwner m.mOwner m.mMap
            mPolicy := destroyPolicy m.mPolicy m.mMap
            calls := m.calls ++ destroyCalls m.mMap }
        mIter := 0 } ∧
    m.destructor = some
      { mMap := []
        mOwner := destroyOwner m.mOwner m.mMap
        mPolicy := destroyPolicy m.mPolicy m.mMap
        calls := m.calls ++ destroyCalls m.mMap } ∧
    (destroyCalls m.mMap).filterMap Event.destroyId = m.mMap.keys ∧
    (destroyCalls m.mMap).filterMap Event.hookId = m.mMap.keys ∧
    m.mMap.keys.Pairwise (· < ·) := by
  refine ⟨?_, fun i => ?_, write_iterator.eraseAll_eq _, ?_, destroyCalls_destroyId _,
    destroyCalls_hookId _, MapClass.wf_keys_sorted _ hwf⟩
  · rw [write_iterator.eraseAll_eq]
    by_cases hne : m.mMap = []
    · obtain ⟨mm, o, p, c⟩ := m
      simp only at hne
      subst hne
      simp [write_iterator.eraseEach, write_iterator.new, MapClass.keys, MapClass.endIter,
        destroyOwner, destroyPolicy, destroyCalls]
    · exact write_iterator.eraseEach_keys m.mMap (write_iterator.new m) rfl hne
  · rw [write_iterator.eraseAll_eq, write_iterator.eraseAll_eq]
    rfl
  · simp only [CacheMap.destructor]
    rw [write_iterator.eraseAll_eq]
    rfl

/-- C19, at a concrete input: the map with keys 2, 5, 9 erased key by key and
by the destructor. -/
theorem eraseAll_is_erase_each_witness :
    exampleMap.mMap.WF ∧
    (write_iterator.new exampleMap).eraseEach [2, 5, 9] =
      (write_iterator.new exampleMap).eraseAll ∧
    exampleMap.destructor = some
      { mMap := []
        mOwner := { destroyed := 3 }
        mPolicy := { handles := 3, touched := 0 }
        calls :=
          [Event.destroy 2 1, Event.destroyCacheEntry 2 20,
           Event.destroy 5 2, Event.destroyCacheEntry 5 50,
           Event.destroy 9 3, Event.destroyCacheEntry 9 90] } :=
  have h := eraseAll_is_erase_each exampleMap (by decide)
  ⟨by decide, h.1, h.2.2.2.1⟩

end AllocClaims

end Transfer

namespace Meru

/-! ## Claims about `GraphicsResourcePriorityLessThanFunctor` -/

theorem functor_eq_true_iff {α : Type} [LinearOrder α] (a b : α × Nat) :
    GraphicsResourcePriorityLessThanFunctor a b = true ↔
      b.1 < a.1 ∨ (a.1 = b.1 ∧ a.2 < b.2) := by
  unfold GraphicsResourcePriorityLessThanFunctor
  by_cases h : a.1 = b.1
  · simp [h]
  · simp [h]

theorem functor_eq_false_iff {α : Type} [LinearOrder α] (a b : α × Nat) :
    GraphicsResourcePriorityLessThanFunctor a b = false ↔
      a.1 < b.1 ∨ (a.1 = b.1 ∧ b.2 ≤ a.2) := by
  rw [← Bool.not_eq_true, functor_eq_true_iff]
  constructor
  · intro h
    rcases lt_trichotomy a.1 b.1 with h1 | h1 | h1
    · exact Or.inl h1
    · refine Or.inr ⟨h1, ?_⟩
      by_contra h2
      exact h (Or.inr ⟨h1, Nat.lt_of_not_le h2⟩)
    · exact absurd (Or.inl h1) h
  · rintro (h1 | ⟨h1, h2⟩) (h3 | ⟨h3, h4⟩)
    · exact lt_asymm h1 h3
    · exact absurd h3 (ne_of_lt h1)
    · exact absurd h1.symm (ne_of_lt h3)
    · exact absurd h4 (Nat.not_lt_of_le h2)

/-- C20: on pairs of a priority and a resource address, with priorities that
are ordinary comparable numbers, the functor is a strict total order: it is
irreflexive, asymmetric and transitive, and two distinct pairs are ordered one
way or the other; a pair with a strictly higher priority comes first and
pairs of equal priority are ordered by ascending address.  Hence two pairs
that the functor does not order are the same pair, so a set ordered by it
never merges two distinct resources, and in a sequence ordered by it the
priorities never increase. -/
theorem priority_functor_is_strict_total_order {α : Type} [LinearOrder α] :
    (∀ a : α × Nat, GraphicsResourcePriorityLessThanFunctor a a = false) ∧
    (∀ a b : α × Nat, GraphicsResourcePriorityLessThanFunctor a b = true →
      GraphicsResourcePriorityLessThanFunctor b a = false) ∧
    (∀ a b c : α × Nat, GraphicsResourcePriorityLessThanFunctor a b = true →
      GraphicsResourcePriorityLessThanFunctor b c = true →
      GraphicsResourcePriorityLessThanFunctor a c = true) ∧
    (∀ a b : α × Nat, a ≠ b →
      GraphicsResourcePriorityLessThanFunctor a b = true ∨
      GraphicsResourcePriorityLessThanFunctor b a = true) ∧
    (∀ a b : α × Nat, b.1 < a.1 → GraphicsResourcePriorityLessThanFunctor a b = true) ∧
    (∀ a b : α × Nat, a.1 = b.1 →
      (GraphicsResourcePriorityLessThanFunctor a b = true ↔ a.2 < b.2)) ∧
    (∀ a b : α × Nat, GraphicsResourcePriorityLessThanFunctor a b = false →
      GraphicsResourcePriorityLessThanFunctor b a = false → a = b) ∧
    (∀ l : List (α × Nat),
      l.Pairwise (fun a b => GraphicsResourcePriorityLessThanFunctor a b = true) →
      (l.map Prod.fst).Pairwise (fun p q => q ≤ p)) := by
  refine ⟨?_, ?_, ?_, ?_, ?_, ?_, ?_, ?_⟩
  · intro a
    rw [functor_eq_false_iff]
    exact Or.inr ⟨rfl, Nat.le_refl _⟩
  · intro a b h
    rw [functor_eq_true_iff] at h
    rw [functor_eq_false_iff]
    rcases h with h | ⟨h1, h2⟩
    · exact Or.inl h
    · exact Or.inr ⟨h1.symm, Nat.le_of_lt h2⟩
  · intro a b c hab hbc
    rw [functor_eq_true_iff] at hab hbc ⊢
    rcases hab with h | ⟨h1, h2⟩
    · rcases hbc with h3 | ⟨h3, _⟩
      · exact Or.inl (lt_trans h3 h)
      · exact Or.inl (h3 ▸ h)
    · rcases hbc with h3 | ⟨h3, h4⟩
      · exact Or.inl (h1 ▸ h3)
      · exact Or.inr ⟨h1.trans h3, Nat.lt_trans h2 h4⟩
  · intro a b hne
    rw [functor_eq_true_iff, functor_eq_true_iff]
    rcases lt_trichotomy a.1 b.1 with h | h | h
    · exact Or.inr (Or.inl h)
    · rcases Nat.lt_trichotomy a.2 b.2 with h2 | h2 | h2
      · exact Or.inl (Or.inr ⟨h, h2⟩)
      · exact absurd (Prod.ext h h2) hne
      · exact Or.inr (Or.inr ⟨h.symm, h2⟩)
    · exact Or.inl (Or.inl h)
  · intro a b h
    rw [functor_eq_true_iff]
    exact Or.inl h
  · intro a b h
    rw [functor_eq_true_iff]
    constructor
    · rintro (h1 | ⟨_, h2⟩)
      · exact absurd h.symm (ne_of_lt h1)
      · exact h2
    · intro h2
      exact Or.inr ⟨h, h2⟩
  · intro a b hab hba
    rw [functor_eq_false_iff] at hab hba
    rcases hab with h | ⟨h1, h2⟩
    · rcases hba with h3 | ⟨h3, _⟩
      · exact absurd h3 (lt_asymm h)
      · exact absurd h3.symm (ne_of_lt h)
    · rcases hba with h3 | ⟨_, h4⟩
      · exact absurd h1.symm (ne_of_lt h3)
      · exact Prod.ext h1 (Nat.le_antisymm h4 h2)
  · intro l hl
    rw [List.pairwise_map]
    refine hl.imp ?_
    intro a b h
    rw [functor_eq_true_iff] at h
    rcases h with h | ⟨h, _⟩
    · exact le_of_lt h
    · exact le_of_eq h.symm

end Meru

namespace Transfer

/-! ## Facts about dense and sparse data -/

namespace DenseData

theorem covers_iff (d : DenseData) (o : Nat) :
    d.covers o = true ↔ d.start ≤ o ∧ o < d.start + d.bytes.length := by
  simp [covers, endbyte]

theorem covers_eq_false_iff (d : DenseData) (o : Nat) :
    d.covers o = false ↔ o < d.start ∨ d.start + d.bytes.length ≤ o := by
  rw [← Bool.not_eq_true, covers_iff]
  omega

theorem inRange_iff (d : DenseData) (o : Nat) :
    d.range.inRange o = true ↔
      d.start ≤ o ∧ (d.wholeFile = true ∨ o < d.start + d.bytes.length) := by
  simp [range, Range.inRange, Range.endbyte]

theorem inRange_of_covers (d : DenseData) (o : Nat) (h : d.covers o = true) :
    d.range.inRange o = true := by
  rw [covers_iff] at h
  rw [inRange_iff]
  exact ⟨h.1, Or.inr h.2⟩

theorem byteAt_of_covers (d : DenseData) (o : Nat) (h : d.covers o = true) :
    d.byteAt o = d.bytes[o - d.start]? := by
  simp [byteAt, h]

theorem merge_start (g f : DenseData) : (g.merge f).start = min g.start f.start := rfl

theorem merge_length (g f : DenseData) (h1 : ¬ g.endbyte < f.start)
    (h2 : ¬ f.endbyte < g.start) :
    (g.merge f).start + (g.merge f).bytes.length = max g.endbyte f.endbyte := by
  simp only [merge, endbyte, List.length_append, List.length_take, List.length_drop] at *
  omega

theorem merge_covers (g f : DenseData) (o : Nat) (h1 : ¬ g.endbyte < f.start)
    (h2 : ¬ f.endbyte < g.start) :
    (g.merge f).covers o = (f.covers o || g.covers o) := by
  rw [Bool.eq_iff_iff, Bool.or_eq_true, covers_iff, covers_iff, covers_iff,
    merge_length g f h1 h2, merge_start]
  simp only [endbyte] at *
  omega

theorem merge_inRange (g f : DenseData) (o : Nat) (h1 : ¬ g.endbyte < f.start)
    (h2 : ¬ f.endbyte < g.start) :
    (g.merge f).range.inRange o = (f.range.inRange o || g.range.inRange o) := by
  rw [Bool.eq_iff_iff, Bool.or_eq_true, inRange_iff, inRange_iff, inRange_iff,
    merge_length g f h1 h2, merge_start]
  simp only [merge, endbyte] at *
  cases g.wholeFile <;> cases f.wholeFile <;> simp <;> omega

theorem merge_byteAt (g f : DenseData) (o : Nat) (h1 : ¬ g.endbyte < f.start)
    (h2 : ¬ f.endbyte < g.start) :
    (g.merge f).byteAt o = if f.covers o then f.byteAt o else g.byteAt o := by
  have hm := merge_covers g f o h1 h2
  by_cases hf : f.covers o = true
  · have hc : (g.merge f).covers o = true := by rw [hm, hf]; rfl
    rw [if_pos hf, byteAt_of_covers _ _ hc, byteAt_of_covers _ _ hf]
    rw [covers_iff] at hf
    simp only [endbyte] at h1 h2
    have hlen : (g.bytes.take (f.start - g.start)).length = f.start - min g.start f.start := by
      rw [List.length_take]
      omega
    simp only [merge]
    rw [List.append_assoc, List.getElem?_append_right (by rw [hlen]; omega), hlen,
      List.getElem?_append_left (by omega)]
    congr 1
    omega
  · rw [if_neg hf]
    have hf2 : f.covers o = false := by simpa using hf
    by_cases hg : g.covers o = true
    · have hc : (g.merge f).covers o = true := by rw [hm, hg, hf2]; rfl
      rw [byteAt_of_covers _ _ hc, byteAt_of_covers _ _ hg]
      rw [covers_iff] at hg
      rw [covers_eq_false_iff] at hf2
      simp only [endbyte] at h1 h2
      simp only [merge]
      rcases hf2 with hlt | hge
      · rw [List.append_assoc, List.getElem?_append_left
          (by rw [List.length_take]; omega), List.getElem?_take]
        have : o - min g.start f.start = o - g.start := by omega
        rw [this]
        have hlt2 : o - g.start < f.start - g.start := by omega
        simp [hlt2]
      · have hlen : (g.bytes.take (f.start - g.start) ++ f.bytes).length =
            f.start + f.bytes.length - min g.start f.start := by
          rw [List.length_append, List.length_take]
          omega
        rw [List.getElem?_append_right (by rw [hlen]; omega), hlen, List.getElem?_drop]
        congr 1
        simp only [endbyte]
        omega
    · have hg2 : g.covers o = false := by simpa using hg
      have hc : (g.merge f).covers o = false := by rw [hm, hg2, hf2]; rfl
      simp [byteAt, hc, hg2]

end DenseData

namespace SparseData

theorem sparse_insert_cons (g : DenseData) (gs : SparseData) (f : DenseData) :
    insert (g :: gs) f =
      if g.endbyte < f.start then g :: insert gs f
      else if f.endbyte < g.start then f :: g :: gs
      else insert gs (g.merge f) := by
  rw [insert]

theorem fragAt_cons (g : DenseData) (gs : SparseData) (o : Nat) :
    fragAt (g :: gs) o = if g.covers o then some g else fragAt gs o := by
  unfold fragAt
  rw [List.find?_cons]
  cases g.covers o <;> rfl

theorem byteAt_cons (g : DenseData) (gs : SparseData) (o : Nat) :
    byteAt (g :: gs) o = if g.covers o then g.byteAt o else byteAt gs o := by
  unfold byteAt
  rw [fragAt_cons]
  cases g.covers o <;> rfl

theorem covered_cons (g : DenseData) (gs : SparseData) (o : Nat) :
    covered (g :: gs) o = (g.range.inRange o || covered gs o) := by
  simp [covered]

theorem byteAt_insert (sp : SparseData) :
    ∀ (f : DenseData) (o : Nat),
      (insert sp f).byteAt o = if f.covers o then f.byteAt o else sp.byteAt o := by
  induction sp with
  | nil =>
    intro f o
    simp only [insert]
    rw [byteAt_cons]
  | cons g gs ih =>
    intro f o
    rw [sparse_insert_cons]
    by_cases h1 : g.endbyte < f.start
    · rw [if_pos h1, byteAt_cons, byteAt_cons, ih]
      by_cases hg : g.covers o = true
      · have hf : f.covers o = false := by
          rw [DenseData.covers_iff] at hg
          rw [DenseData.covers_eq_false_iff]
          simp only [DenseData.endbyte] at h1
          omega
        simp [hg, hf]
      · have hg2 : g.covers o = false := by simpa using hg
        simp [hg2]
    · rw [if_neg h1]
      by_cases h2 : f.endbyte < g.start
      · rw [if_pos h2, byteAt_cons]
      · rw [if_neg h2, ih, DenseData.merge_covers g f o h1 h2,
          DenseData.merge_byteAt g f o h1 h2, byteAt_cons]
        cases f.covers o <;> cases g.covers o <;> rfl

theorem covered_insert (sp : SparseData) :
    ∀ (f : DenseData) (o : Nat),
      (insert sp f).covered o = (f.range.inRange o || sp.covered o) := by
  induction sp with
  | nil =>
    intro f o
    simp [insert, covered]
  | cons g gs ih =>
    intro f o
    rw [sparse_insert_cons]
    by_cases h1 : g.endbyte < f.start
    · rw [if_pos h1, covered_cons, covered_cons, ih]
      cases f.range.inRange o <;> cases g.range.inRange o <;> rfl
    · rw [if_neg h1]
      by_cases h2 : f.endbyte < g.start
      · rw [if_pos h2, covered_cons]
      · rw [if_neg h2, ih, DenseData.merge_inRange g f o h1 h2, covered_cons]
        cases f.range.inRange o <;> cases g.range.inRange o <;> rfl

theorem start_lt_of_mem_insert (sp : SparseData) (b : Nat) :
    ∀ f : DenseData, (∀ y ∈ sp, b < y.start) → b < f.start →
      ∀ x ∈ insert sp f, b < x.start := by
  induction sp with
  | nil =>
    intro f _ hf x hx
    simp only [insert, List.mem_singleton] at hx
    rw [hx]
    exact hf
  | cons g gs ih =>
    intro f hsp hf x hx
    have hg : b < g.start := hsp g (List.mem_cons_self _ _)
    have hgs : ∀ y ∈ gs, b < y.start := fun y hy => hsp y (List.mem_cons_of_mem _ hy)
    rw [sparse_insert_cons] at hx
    by_cases h1 : g.endbyte < f.start
    · rw [if_pos h1] at hx
      rcases List.mem_cons.1 hx with hx | hx
      · rw [hx]; exact hg
      · exact ih f hgs hf x hx
    · rw [if_neg h1] at hx
      by_cases h2 : f.endbyte < g.start
      · rw [if_pos h2] at hx
        rcases List.mem_cons.1 hx with hx | hx
        · rw [hx]; exact hf
        · exact hsp x hx
      · rw [if_neg h2] at hx
        refine ih (g.merge f) hgs ?_ x hx
        rw [DenseData.merge_start]
        omega

theorem normal_cons (g : DenseData) (gs : SparseData) :
    Normal (g :: gs) ↔ (∀ x ∈ gs, g.endbyte < x.start) ∧ Normal gs := by
  unfold Normal
  exact List.pairwise_cons

theorem normal_insert (sp : SparseData) :
    ∀ f : DenseData, Normal sp → Normal (insert sp f) := by
  induction sp with
  | nil =>
    intro f _
    simp [insert, Normal]
  | cons g gs ih =>
    intro f hn
    obtain ⟨hg, hgs⟩ := (normal_cons g gs).1 hn
    rw [sparse_insert_cons]
    by_cases h1 : g.endbyte < f.start
    · rw [if_pos h1, normal_cons]
      exact ⟨start_lt_of_mem_insert gs g.endbyte f hg h1, ih f hgs⟩
    · rw [if_neg h1]
      by_cases h2 : f.endbyte < g.start
      · rw [if_pos h2, normal_cons]
        refine ⟨fun x hx => ?_, hn⟩
        rcases List.mem_cons.1 hx with hx | hx
        · rw [hx]; exact h2
        · have := hg x hx
          simp only [DenseData.endbyte] at this h2 ⊢
          omega
      · rw [if_neg h2]
        exact ih (g.merge f) hgs

theorem covered_insertAll (fs : List DenseData) :
    ∀ (sp : SparseData) (o : Nat),
      (insertAll sp fs).covered o = true ↔
        sp.covered o = true ∨ ∃ f ∈ fs, f.range.inRange o = true := by
  induction fs with
  | nil => intro sp o; simp [insertAll]
  | cons f fs ih =>
    intro sp o
    have := ih (insert sp f) o
    simp only [insertAll, List.foldl_cons] at this ⊢
    rw [this, covered_insert, Bool.or_eq_true]
    simp only [List.mem_cons, exists_eq_or_imp]
    tauto

theorem byteAt_isSome_insertAll (fs : List DenseData) :
    ∀ (sp : SparseData) (o : Nat),
      ((insertAll sp fs).byteAt o).isSome = true ↔
        (sp.byteAt o).isSome = true ∨ ∃ f ∈ fs, f.covers o = true := by
  induction fs with
  | nil => intro sp o; simp [insertAll]
  | cons f fs ih =>
    intro sp o
    have := ih (insert sp f) o
    simp only [insertAll, List.foldl_cons] at this ⊢
    rw [this, byteAt_insert]
    simp only [List.mem_cons, exists_eq_or_imp]
    by_cases hf : f.covers o = true
    · have hs : (f.byteAt o).isSome = true := by
        rw [DenseData.byteAt_of_covers _ _ hf]
        rw [DenseData.covers_iff] at hf
        rw [Option.isSome_iff_exists]
        exact ⟨_, List.getElem?_eq_getElem (by omega)⟩
      simp [hf, hs]
    · simp [hf]

end SparseData

namespace SparseData

theorem fragAt_some (sp : SparseData) (o : Nat) (f : DenseData)
    (h : fragAt sp o = some f) : f ∈ sp ∧ f.covers o = true := by
  unfold fragAt at h
  exact ⟨List.mem_of_find?_eq_some h, by simpa using List.find?_some h⟩

theorem fragAt_of_mem (sp : SparseData) (hn : Normal sp) (f : DenseData) (o : Nat)
    (hf : f ∈ sp) (hc : f.covers o = true) : fragAt sp o = some f := by
  induction sp with
  | nil => simp at hf
  | cons g gs ih =>
    obtain ⟨hg, hgs⟩ := (normal_cons g gs).1 hn
    rw [fragAt_cons]
    rcases List.mem_cons.1 hf with hfg | hfg
    · rw [← hfg, hc]
      rfl
    · have hlt := hg f hfg
      have hgc : g.covers o = false := by
        rw [DenseData.covers_iff] at hc
        rw [DenseData.covers_eq_false_iff]
        simp only [DenseData.endbyte] at hlt
        omega
      rw [hgc]
      exact ih hgs hfg

theorem apart_of_mem (sp : SparseData) (hn : Normal sp) (f g : DenseData)
    (hf : f ∈ sp) (hg : g ∈ sp) :
    f = g ∨ f.endbyte < g.start ∨ g.endbyte < f.start := by
  induction sp with
  | nil => simp at hf
  | cons x xs ih =>
    obtain ⟨hx, hxs⟩ := (normal_cons x xs).1 hn
    rcases List.mem_cons.1 hf with hf | hf
    · rcases List.mem_cons.1 hg with hg | hg
      · exact Or.inl (hf.trans hg.symm)
      · exact Or.inr (Or.inl (hf ▸ hx g hg))
    · rcases List.mem_cons.1 hg with hg | hg
      · exact Or.inr (Or.inr (hg ▸ hx f hf))
      · exact ih hxs hf hg

/-- In a normal sparse set the offset at which a fragment ends is a hole. -/
theorem fragAt_endbyte (sp : SparseData) (hn : Normal sp) (f : DenseData) (hf : f ∈ sp) :
    fragAt sp f.endbyte = none := by
  cases h : fragAt sp f.endbyte with
  | none => rfl
  | some g =>
    exfalso
    obtain ⟨hg, hc⟩ := fragAt_some sp _ g h
    rw [DenseData.covers_iff] at hc
    rcases apart_of_mem sp hn f g hf hg with h1 | h1 | h1
    · subst h1
      simp only [DenseData.endbyte] at hc
      omega
    · simp only [DenseData.endbyte] at hc h1
      omega
    · simp only [DenseData.endbyte] at hc h1
      omega

/-- In a normal sparse set, a run of offsets that all hold a byte lies in one
fragment. -/
theorem fragAt_run (sp : SparseData) (hn : Normal sp) (o e : Nat) (hoe : o < e)
    (hall : ∀ x, o ≤ x → x < e → (fragAt sp x).isSome = true) :
    ∃ f, fragAt sp o = some f ∧ f.start ≤ o ∧ e ≤ f.endbyte ∧
      ∀ x, o ≤ x → x < e → fragAt sp x = some f := by
  have h0 := hall o (Nat.le_refl _) hoe
  obtain ⟨f, hf⟩ := Option.isSome_iff_exists.1 h0
  obtain ⟨hmem, hc⟩ := fragAt_some sp o f hf
  have hc2 := (DenseData.covers_iff f o).1 hc
  have hend : e ≤ f.endbyte := by
    by_contra hlt
    have hx := hall f.endbyte (by simp only [DenseData.endbyte]; omega) (by omega)
    rw [fragAt_endbyte sp hn f hmem] at hx
    exact Bool.noConfusion hx
  refine ⟨f, hf, hc2.1, hend, fun x hx1 hx2 => ?_⟩
  apply fragAt_of_mem sp hn f x hmem
  rw [DenseData.covers_iff]
  simp only [DenseData.endbyte] at hend
  omega

theorem byteAt_of_fragAt (sp : SparseData) (o : Nat) (f : DenseData)
    (h : fragAt sp o = some f) : byteAt sp o = f.bytes[o - f.start]? := by
  unfold byteAt
  rw [h]
  exact DenseData.byteAt_of_covers f o (fragAt_some sp o f h).2

theorem isSome_fragAt_iff (sp : SparseData) (o : Nat) :
    (fragAt sp o).isSome = (byteAt sp o).isSome := by
  cases h : fragAt sp o with
  | none => simp [byteAt, h]
  | some f =>
    rw [byteAt_of_fragAt sp o f h]
    have hc := (DenseData.covers_iff f o).1 (fragAt_some sp o f h).2
    rw [List.getElem?_eq_getElem (by omega)]
    rfl

theorem le_bound (sp : SparseData) (f : DenseData) (hf : f ∈ sp) :
    f.endbyte ≤ bound sp := by
  induction sp with
  | nil => simp at hf
  | cons g gs ih =>
    simp only [bound]
    rcases List.mem_cons.1 hf with hf | hf
    · rw [hf]
      exact Nat.le_max_left _ _
    · exact Nat.le_trans (ih hf) (Nat.le_max_right _ _)

theorem covered_iff (sp : SparseData) (o : Nat) :
    covered sp o = true ↔ ∃ f ∈ sp, f.range.inRange o = true := by
  simp [covered]

/-- The query `contains` is coverage by the union of the fragments. -/
theorem contains_iff (sp : SparseData) (r : Range) :
    contains sp r = true ↔ ∀ o, r.inRange o = true → covered sp o = true := by
  unfold contains
  by_cases hw : r.wholeFile = true
  · rw [if_pos hw]
    simp only [List.any_eq_true, Bool.and_eq_true, List.all_eq_true, List.mem_range]
    constructor
    · rintro ⟨f, hf, hfw, hall⟩ o ho
      simp only [Range.inRange, hw, Bool.true_or, Bool.and_true, decide_eq_true_eq] at ho
      by_cases hlt : o < f.start
      · have := hall (o - r.start) (by omega)
        rwa [Nat.add_sub_cancel' ho] at this
      · rw [covered_iff]
        refine ⟨f, hf, ?_⟩
        rw [DenseData.inRange_iff]
        exact ⟨Nat.le_of_not_lt hlt, Or.inl hfw⟩
    · intro hall
      have hm := hall (max r.start (bound sp)) (by simp [Range.inRange, hw])
      rw [covered_iff] at hm
      obtain ⟨f, hf, hin⟩ := hm
      rw [DenseData.inRange_iff] at hin
      have hb := le_bound sp f hf
      simp only [DenseData.endbyte] at hb
      refine ⟨f, hf, ?_, fun i hi => hall _ (by simp [Range.inRange, hw])⟩
      rcases hin.2 with h | h
      · exact h
      · omega
  · have hw2 : r.wholeFile = false := by simpa using hw
    rw [if_neg hw]
    simp only [List.all_eq_true, List.mem_range]
    constructor
    · intro hall o ho
      simp only [Range.inRange, hw2, Bool.false_or, Bool.and_eq_true, decide_eq_true_eq,
        Range.endbyte] at ho
      have := hall (o - r.start) (by omega)
      rwa [Nat.add_sub_cancel' ho.1] at this
    · intro hall i hi
      exact hall _ (by simp [Range.inRange, hw2, Range.endbyte, hi])

theorem getData_of_contains (accepts : Range → DenseData → Bool)
    (next : Option (Range → Option DenseData)) (sp : SparseData) (r : Range)
    (h : contains sp r = true) : MemoryCache.getData next accepts sp r = (some sp, sp) := by
  simp [MemoryCache.getData, h]

end SparseData

namespace SparseData

/-- Reading back: when a normal sparse set holds the bytes `ab` at the offsets
from `s`, `dataAt` at an offset of that run gives a buffer that reaches the
end of the run and holds those bytes. -/
theorem dataAt_of_bytes (sp : SparseData) (hn : Normal sp) (s : Nat) (ab : List Nat)
    (hbyte : ∀ x, s ≤ x → x < s + ab.length → byteAt sp x = ab[x - s]?)
    (o : Nat) (h1 : s ≤ o) (h2 : o < s + ab.length) :
    ∃ got, dataAt sp o = some got ∧ 0 < got.length ∧ s + ab.length - o ≤ got.length ∧
      got.take (s + ab.length - o) = ab.drop (o - s) := by
  have hall : ∀ x, o ≤ x → x < s + ab.length → (fragAt sp x).isSome = true := by
    intro x hx1 hx2
    rw [isSome_fragAt_iff, hbyte x (by omega) hx2, List.getElem?_eq_getElem (by omega)]
    rfl
  obtain ⟨f, hf, hfs, hfe, hrun⟩ := fragAt_run sp hn o (s + ab.length) h2 hall
  simp only [DenseData.endbyte] at hfe
  refine ⟨f.dataAt o, by simp [dataAt, hf], ?_, ?_, ?_⟩
  · simp only [DenseData.dataAt, List.length_drop]
    omega
  · simp only [DenseData.dataAt, List.length_drop]
    omega
  · apply List.ext_getElem?
    intro i
    rw [List.getElem?_take, List.getElem?_drop]
    by_cases hi : i < s + ab.length - o
    · rw [if_pos hi]
      simp only [DenseData.dataAt, List.getElem?_drop]
      have hb := hbyte (o + i) (by omega) (by omega)
      rw [byteAt_of_fragAt sp (o + i) f (hrun (o + i) (by omega) (by omega))] at hb
      have e1 : o - f.start + i = o + i - f.start := by omega
      have e2 : o - s + i = o + i - s := by omega
      rw [e1, e2]
      exact hb
    · rw [if_neg hi]
      exact (List.getElem?_eq_none (by omega)).symm

end SparseData

theorem compareCallback_of_dataAt (sp : SparseData) (s : Nat) (ab : List Nat)
    (h : 0 < ab.length → ∃ got, sp.dataAt s = some got ∧ ab.length ≤ got.length ∧
      got.take ab.length = ab) :
    compareCallback { start := s, bytes := ab, wholeFile := false } (some sp) = some true := by
  simp only [compareCallback, DenseData.length, DenseData.startbyte]
  rw [compareLoop]
  by_cases hlen : 0 < ab.length
  · obtain ⟨got, hgot, hle, htake⟩ := h hlen
    have hlt : s < s + ab.length := by omega
    simp only [DenseData.endbyte, hlt, if_true, hgot]
    have hn : ¬ got.length + s < s + ab.length := by omega
    have hge : s + got.length ≥ s + ab.length := by omega
    simp only [hn, if_false, hge, if_true, DenseData.dataAt, Nat.sub_self, List.drop_zero,
      Nat.add_sub_cancel_left, htake, List.take_length]
    simp
  · have hlt : ¬ s < s + ab.length := by omega
    simp only [DenseData.endbyte, hlt, if_false]

namespace SparseData

theorem contains_of_whole (sp : SparseData) (r : Range)
    (h : ∃ f ∈ sp, f.start = 0 ∧ f.wholeFile = true) : contains sp r = true := by
  rw [contains_iff]
  intro o _
  obtain ⟨f, hf, h0, hw⟩ := h
  rw [covered_iff]
  refine ⟨f, hf, ?_⟩
  rw [DenseData.inRange_iff]
  exact ⟨by omega, Or.inl hw⟩

end SparseData

/-! ## Claims about sparse data and the memory layer -/

section SparseClaims

/-- C12: when two adjacent fragments `A = [s, m)` with bytes `a` and
`B = [m, e)` with bytes `b` were filled, in either order, into a sparse set in
normal form, a memory-only request for `[s, e)` is answered with the sparse
set (not null); at every offset `o` of `[s, e)`, `dataAt(o)` is not null, has a
positive length that reaches `e`, and holds the bytes of `A` and `B` from `o`;
and the walk of `compareCallback` against `a ++ b` passes every assertion. -/
theorem read_back_adjacent_fills (sp : SparseData) (hn : sp.Normal) (s : Nat)
    (a b : List Nat) (accepts : Range → DenseData → Bool) (sp1 : SparseData)
    (hfill :
      sp1 = (sp.insert { start := s, bytes := a, wholeFile := false }).insert
        { start := s + a.length, bytes := b, wholeFile := false } ∨
      sp1 = (sp.insert { start := s + a.length, bytes := b, wholeFile := false }).insert
        { start := s, bytes := a, wholeFile := false }) :
    MemoryCache.getData none accepts sp1 (Range.ofLength s (a.length + b.length)) =
      (some sp1, sp1) ∧
    (∀ o, s ≤ o → o < s + (a.length + b.length) →
      ∃ got, sp1.dataAt o = some got ∧ 0 < got.length ∧
        s + (a.length + b.length) - o ≤ got.length ∧
        got.take (s + (a.length + b.length) - o) = (a ++ b).drop (o - s)) ∧
    compareCallback { start := s, bytes := a ++ b, wholeFile := false }
      (MemoryCache.getData none accepts sp1 (Range.ofLength s (a.length + b.length))).1 =
        some true := by
  have hnorm : sp1.Normal := by
    rcases hfill with h | h <;> rw [h] <;>
      exact SparseData.normal_insert _ _ (SparseData.normal_insert _ _ hn)
  have hbyte : ∀ x, s ≤ x → x < s + (a ++ b).length → sp1.byteAt x = (a ++ b)[x - s]? := by
    intro x hx1 hx2
    rw [List.length_append] at hx2
    have hA : ∀ y, (DenseData.covers { start := s, bytes := a, wholeFile := false } y = true ↔
        s ≤ y ∧ y < s + a.length) := fun y => DenseData.covers_iff _ y
    have hB : ∀ y, (DenseData.covers
        { start := s + a.length, bytes := b, wholeFile := false } y = true ↔
        s + a.length ≤ y ∧ y < s + a.length + b.length) := fun y => DenseData.covers_iff _ y
    by_cases hx : x < s + a.length
    · have cA := (hA x).2 ⟨hx1, hx⟩
      have cB : DenseData.covers
          { start := s + a.length, bytes := b, wholeFile := false } x = false := by
        rw [← Bool.not_eq_true, hB]; omega
      have e : (a ++ b)[x - s]? = a[x - s]? := List.getElem?_append_left (by omega)
      rcases hfill with h | h <;> rw [h, SparseData.byteAt_insert, SparseData.byteAt_insert] <;>
        simp [cA, cB, e, DenseData.byteAt]
    · have cB := (hB x).2 ⟨by omega, by omega⟩
      have cA : DenseData.covers { start := s, bytes := a, wholeFile := false } x = false := by
        rw [← Bool.not_eq_true, hA]; omega
      have e : (a ++ b)[x - s]? = b[x - (s + a.length)]? := by
        rw [List.getElem?_append_right (by omega)]
        congr 1
        omega
      rcases hfill with h | h <;> rw [h, SparseData.byteAt_insert, SparseData.byteAt_insert] <;>
        simp [cA, cB, e, DenseData.byteAt]
  have hcont : sp1.contains (Range.ofLength s (a.length + b.length)) = true := by
    rw [SparseData.contains_iff]
    intro o ho
    simp only [Range.inRange, Range.ofLength, Range.endbyte, Bool.false_or, Bool.and_eq_true,
      decide_eq_true_eq] at ho
    have hs := hbyte o ho.1 (by rw [List.length_append]; exact ho.2)
    have hsome : (sp1.fragAt o).isSome = true := by
      rw [SparseData.isSome_fragAt_iff, hs,
        List.getElem?_eq_getElem (by rw [List.length_append]; omega)]
      rfl
    obtain ⟨f, hf⟩ := Option.isSome_iff_exists.1 hsome
    obtain ⟨hmem, hc⟩ := SparseData.fragAt_some sp1 o f hf
    rw [SparseData.covered_iff]
    exact ⟨f, hmem, DenseData.inRange_of_covers f o hc⟩
  have hdata := SparseData.dataAt_of_bytes sp1 hnorm s (a ++ b) hbyte
  rw [SparseData.getData_of_contains accepts none sp1 _ hcont]
  refine ⟨rfl, ?_, ?_⟩
  · intro o ho1 ho2
    have := hdata o ho1 (by rw [List.length_append]; exact ho2)
    rwa [List.length_append] at this
  · apply compareCallback_of_dataAt
    intro hlen
    obtain ⟨got, hg, _, hle, htake⟩ := hdata s (Nat.le_refl _) (by omega)
    refine ⟨got, hg, by omega, ?_⟩
    simpa using htake

end SparseClaims

section SparseClaims2

/-- C12, at a concrete input: `[2, 8) = "TML>\r\n"` and `[8, 14) = "<HEAD>"`
filled into an empty sparse set and read back over `[2, 14)`. -/
theorem read_back_adjacent_fills_witness :
    SparseData.Normal [] ∧
    exampleA ++ exampleB = bytes "TML>\r\n<HEAD>" ∧
    compareCallback { start := 2, bytes := exampleA ++ exampleB, wholeFile := false }
      (MemoryCache.getData none acceptBudget exampleRead
        (Range.ofLength 2 (exampleA.length + exampleB.length))).1 = some true :=
  ⟨by decide, by decide,
    (read_back_adjacent_fills [] (by decide) 2 exampleA exampleB acceptBudget exampleRead
      (Or.inl rfl)).2.2⟩

/-- C13: after a sequence of fragments is inserted into a sparse set, the
offsets covered are exactly those covered before together with the union of
the inserted ranges, and the offsets that hold a byte are exactly those that
held one before together with those of the inserted buffers.  So the sparse
set covers a range exactly when every offset of the range is in that union,
and a range `r` that lies in the union, whichever fragments it spans, is
covered: a memory-only request for it is answered with the sparse set. -/
theorem coverage_is_union (sp : SparseData) (fs : List DenseData)
    (accepts : Range → DenseData → Bool) (r : Range)
    (hr : ∀ o, r.inRange o = true →
      sp.covered o = true ∨ ∃ f ∈ fs, f.range.inRange o = true) :
    (∀ o, (sp.insertAll fs).covered o = true ↔
      sp.covered o = true ∨ ∃ f ∈ fs, f.range.inRange o = true) ∧
    (∀ o, ((sp.insertAll fs).byteAt o).isSome = true ↔
      (sp.byteAt o).isSome = true ∨ ∃ f ∈ fs, f.covers o = true) ∧
    (∀ q : Range, (sp.insertAll fs).contains q = true ↔
      ∀ o, q.inRange o = true →
        sp.covered o = true ∨ ∃ f ∈ fs, f.range.inRange o = true) ∧
    (sp.insertAll fs).contains r = true ∧
    MemoryCache.getData none accepts (sp.insertAll fs) r =
      (some (sp.insertAll fs), sp.insertAll fs) := by
  have hq : ∀ q : Range, (sp.insertAll fs).contains q = true ↔
      ∀ o, q.inRange o = true →
        sp.covered o = true ∨ ∃ f ∈ fs, f.range.inRange o = true := by
    intro q
    rw [SparseData.contains_iff]
    constructor
    · intro h o ho
      exact (SparseData.covered_insertAll fs sp o).1 (h o ho)
    · intro h o ho
      exact (SparseData.covered_insertAll fs sp o).2 (h o ho)
  have hc := (hq r).2 hr
  exact ⟨SparseData.covered_insertAll fs sp, SparseData.byteAt_isSome_insertAll fs sp, hq, hc,
    SparseData.getData_of_contains accepts none _ r hc⟩

/-- C13, at a concrete input: after the fills `[6,10)`, `[2,8)`, `[8,14)`,
`[6,13)`, the memory-only requests for `[5,8)` and for `[2,14)` succeed. -/
theorem coverage_is_union_witness :
    (MemoryCache.getData none acceptBudget (SparseData.insertAll [] exampleFills)
      (Range.bounds 5 8 false)).1 = some exampleSparse ∧
    (MemoryCache.getData none acceptBudget (SparseData.insertAll [] exampleFills)
      (Range.bounds 2 14 false)).1 = some exampleSparse :=
  have h1 := (coverage_is_union [] exampleFills acceptBudget (Range.bounds 5 8 false)
    (fun o ho => Or.inr ⟨fill exampleFile 2 8, by simp [exampleFills], by
      simp only [Range.inRange, Range.bounds, Range.endbyte, Bool.false_or, Bool.and_eq_true,
        decide_eq_true_eq] at ho
      rw [DenseData.inRange_iff]
      have hl : (fill exampleFile 2 8).bytes.length = 6 := by decide
      rw [hl]
      exact ⟨by simp only [fill]; omega, Or.inr (by simp only [fill]; omega)⟩⟩)).2.2.2.2
  have h2 := (coverage_is_union [] exampleFills acceptBudget (Range.bounds 2 14 false)
    (fun o ho => by
      simp only [Range.inRange, Range.bounds, Range.endbyte, Bool.false_or, Bool.and_eq_true,
        decide_eq_true_eq] at ho
      by_cases h8 : o < 8
      · refine Or.inr ⟨fill exampleFile 2 8, by simp [exampleFills], ?_⟩
        rw [DenseData.inRange_iff]
        have hl : (fill exampleFile 2 8).bytes.length = 6 := by decide
        rw [hl]
        exact ⟨by simp only [fill]; omega, Or.inr (by simp only [fill]; omega)⟩
      · refine Or.inr ⟨fill exampleFile 8 14, by simp [exampleFills], ?_⟩
        rw [DenseData.inRange_iff]
        have hl : (fill exampleFile 8 14).bytes.length = 6 := by decide
        rw [hl]
        exact ⟨by simp only [fill]; omega, Or.inr (by simp only [fill]; omega)⟩)).2.2.2.2
  ⟨by rw [h1]; rfl, by rw [h2]; rfl⟩

end SparseClaims2

section SparseClaims3

/-- C15: the whole file subsumes every range.  `contains(outer, inner)` is
true exactly when `outer.start ≤ inner.start` and `inner.end ≤ outer.end`, or
`outer` is whole-file; the whole-file range contains every range.  Hence a
sparse set that holds the whole file (a fragment from offset 0 that runs to
the end of the file) answers every memory-only request with itself (not null),
for a bounded range and for a range that runs to the end of the file alike;
and that is the state after a request for the whole file through the chain,
its fill admitted. -/
theorem whole_file_subsumes_every_range (file : List Nat) (sp : SparseData)
    (accepts : Range → DenseData → Bool)
    (had : accepts Range.whole { start := 0, bytes := file, wholeFile := true } = true) :
    (∀ outer inner : Range, Range.contains outer inner = true ↔
      (outer.start ≤ inner.start ∧ inner.endbyte ≤ outer.endbyte) ∨
        outer.wholeFile = true) ∧
    (∀ inner : Range, Range.contains Range.whole inner = true) ∧
    (∀ (sp1 : SparseData) (r : Range), (∃ f ∈ sp1, f.start = 0 ∧ f.wholeFile = true) →
      MemoryCache.getData none accepts sp1 r = (some sp1, sp1)) ∧
    (∀ r : Range,
      (MemoryCache.getData none accepts
        (MemoryCache.getData (some (fetch file)) accepts sp Range.whole).2 r).1 =
      some (MemoryCache.getData (some (fetch file)) accepts sp Range.whole).2) := by
  refine ⟨?_, ?_, ?_, ?_⟩
  · intro outer inner
    simp [Range.contains]
  · intro inner
    simp [Range.contains, Range.whole]
  · intro sp1 r h
    exact SparseData.getData_of_contains accepts none sp1 r (SparseData.contains_of_whole sp1 r h)
  · intro r
    have hall : ∀ o, SparseData.covered
        (MemoryCache.getData (some (fetch file)) accepts sp Range.whole).2 o = true := by
      intro o
      by_cases hc : sp.contains Range.whole = true
      · rw [SparseData.getData_of_contains accepts _ sp _ hc]
        exact (SparseData.contains_iff sp Range.whole).1 hc o (by simp [Range.inRange, Range.whole])
      · have hf0 : fetch file Range.whole =
            some { start := 0, bytes := file, wholeFile := true } := by
          simp [fetch, Range.whole]
        have hc2 : sp.contains Range.whole = false := by simpa using hc
        simp only [MemoryCache.getData, hc2, hf0, had, if_true, Bool.false_eq_true, if_false]
        rw [SparseData.covered_insert]
        simp [DenseData.range, Range.inRange]
    have hc := (SparseData.contains_iff _ r).2 (fun o _ => hall o)
    rw [SparseData.getData_of_contains accepts none _ r hc]

/-- C15, at a concrete input: after the fills of the test and a request for
the whole file through the chain, the memory-only requests for the bounds
`[2, 14)` and for `[1, end-of-file)` are answered, not null. -/
theorem whole_file_subsumes_every_range_witness :
    acceptBudget Range.whole { start := 0, bytes := exampleFile, wholeFile := true } = true ∧
    (MemoryCache.getData none acceptBudget
      (MemoryCache.getData (some (fetch exampleFile)) acceptBudget exampleSparse Range.whole).2
      (Range.bounds 2 14 false)).1.isSome = true ∧
    (MemoryCache.getData none acceptBudget
      (MemoryCache.getData (some (fetch exampleFile)) acceptBudget exampleSparse Range.whole).2
      (Range.bounds 1 10 true)).1.isSome = true :=
  have h := (whole_file_subsumes_every_range exampleFile exampleSparse acceptBudget
    (by decide)).2.2.2
  ⟨by decide, by rw [h (Range.bounds 2 14 false)]; rfl, by rw [h (Range.bounds 1 10 true)]; rfl⟩

end SparseClaims3

end Transfer

namespace Meru

/-! ## Claims about `GraphicsResourceName::hashLookupCallback` -/

theorem GraphicsResourceName.tryBlock_of_returns {H U T R : Type} (env : ResourceEnv H U T R)
    (hadd : ∀ r, env.addDependency r = none) (hparsed : ∀ b, env.parsed b = none)
    (refType : T) (h : H) :
    GraphicsResourceName.tryBlock env refType h =
      match env.getResourceAsset (env.uri h) refType with
      | Except.error e => { calls := [], escaped := some e }
      | Except.ok r =>
        { calls := [ResourceCall.addDependency r, ResourceCall.parsed true]
          escaped := none } := by
  unfold GraphicsResourceName.tryBlock
  cases env.getResourceAsset (env.uri h) refType with
  | error e => rfl
  | ok r => simp [hadd r, hparsed true]

/-- C21, as amended: with `addDependency` and `parsed` returning normally,
`hashLookupCallback` calls nothing when the weak resource pointer has expired.
On a live resource it calls `parsed(false)` once and adds no dependency when
the hash is null or `getResourceAsset` raises `std::invalid_argument`; it adds
the looked-up asset as a dependency and then calls `parsed(true)` once when
the hash is not null and `getResourceAsset` returns; in these cases no
exception leaves the callback.  When `getResourceAsset` raises an exception of
another type, nothing is called on the resource and that exception leaves the
callback.  So `parsed` is called at most once and no `std::invalid_argument`
escapes. -/
theorem hashLookupCallback_reports_outcome {H U T R S : Type} (env : ResourceEnv H U T R)
    (hadd : ∀ r, env.addDependency r = none) (hparsed : ∀ b, env.parsed b = none)
    (resource : Option S) (refType : T) (hash : Option H) :
    (resource = none →
      GraphicsResourceName.hashLookupCallback env resource refType hash =
        { calls := [], escaped := none }) ∧
    (resource ≠ none → hash = none →
      GraphicsResourceName.hashLookupCallback env resource refType hash =
        { calls := [ResourceCall.parsed false], escaped := none }) ∧
    (∀ h r, resource ≠ none → hash = some h →
      env.getResourceAsset (env.uri h) refType = Except.ok r →
      GraphicsResourceName.hashLookupCallback env resource refType hash =
        { calls := [ResourceCall.addDependency r, ResourceCall.parsed true]
          escaped := none }) ∧
    (∀ h, resource ≠ none → hash = some h →
      env.getResourceAsset (env.uri h) refType = Except.error Exception.invalid_argument →
      GraphicsResourceName.hashLookupCallback env resource refType hash =
        { calls := [ResourceCall.parsed false], escaped := none }) ∧
    (∀ h w, resource ≠ none → hash = some h →
      env.getResourceAsset (env.uri h) refType = Except.error (Exception.other w) →
      GraphicsResourceName.hashLookupCallback env resource refType hash =
        { calls := [], escaped := some (Exception.other w) }) ∧
    ((GraphicsResourceName.hashLookupCallback env resource refType hash).calls.countP
      ResourceCall.isParsed ≤ 1) ∧
    (GraphicsResourceName.hashLookupCallback env resource refType hash).escaped ≠
      some Exception.invalid_argument := by
  cases resource with
  | none =>
    refine ⟨fun _ => rfl, fun h => absurd rfl h, fun _ _ h => absurd rfl h,
      fun _ h => absurd rfl h, fun _ _ h => absurd rfl h, ?_, ?_⟩
    · simp [GraphicsResourceName.hashLookupCallback]
    · simp [GraphicsResourceName.hashLookupCallback]
  | some s =>
    cases hash with
    | none =>
      refine ⟨fun h => Option.noConfusion h, fun _ _ => ?_, fun _ _ _ h => Option.noConfusion h,
        fun _ _ h => Option.noConfusion h, fun _ _ _ h => Option.noConfusion h, ?_, ?_⟩
      · simp [GraphicsResourceName.hashLookupCallback, hparsed false]
      · simp [GraphicsResourceName.hashLookupCallback, ResourceCall.isParsed]
      · simp [GraphicsResourceName.hashLookupCallback, hparsed false]
    | some h0 =>
      have ht := GraphicsResourceName.tryBlock_of_returns env hadd hparsed refType h0
      cases hl : env.getResourceAsset (env.uri h0) refType with
      | ok r =>
        rw [hl] at ht
        have hc : GraphicsResourceName.hashLookupCallback env (some s) refType (some h0) =
            { calls := [ResourceCall.addDependency r, ResourceCall.parsed true]
              escaped := none } := by
          simp [GraphicsResourceName.hashLookupCallback, ht]
        rw [hc]
        refine ⟨fun h => Option.noConfusion h, fun _ h => Option.noConfusion h, ?_, ?_, ?_, ?_, ?_⟩
        · intro h r1 _ hh hr
          cases hh
          rw [hl] at hr
          cases hr
          rfl
        · intro h _ hh hr
          cases hh
          rw [hl] at hr
          cases hr
        · intro h w _ hh hr
          cases hh
          rw [hl] at hr
          cases hr
        · simp [ResourceCall.isParsed]
        · simp
      | error e =>
        rw [hl] at ht
        cases e with
        | invalid_argument =>
          have hc : GraphicsResourceName.hashLookupCallback env (some s) refType (some h0) =
              { calls := [ResourceCall.parsed false], escaped := none } := by
            simp [GraphicsResourceName.hashLookupCallback, ht, hparsed false]
          rw [hc]
          refine ⟨fun h => Option.noConfusion h, fun _ h => Option.noConfusion h,
            ?_, ?_, ?_, ?_, ?_⟩
          · intro h r1 _ hh hr
            cases hh
            rw [hl] at hr
            cases hr
          · intro h _ _ _
            rfl
          · intro h w _ hh hr
            cases hh
            rw [hl] at hr
            cases hr
          · simp [ResourceCall.isParsed]
          · simp
        | other w0 =>
          have hc : GraphicsResourceName.hashLookupCallback env (some s) refType (some h0) =
              { calls := [], escaped := some (Exception.other w0) } := by
            simp [GraphicsResourceName.hashLookupCallback, ht]
          rw [hc]
          refine ⟨fun h => Option.noConfusion h, fun _ h => Option.noConfusion h,
            ?_, ?_, ?_, ?_, ?_⟩
          · intro h r1 _ hh hr
            cases hh
            rw [hl] at hr
            cases hr
          · intro h _ hh hr
            cases hh
            rw [hl] at hr
            cases hr
          · intro h w _ hh hr
            cases hh
            rw [hl] at hr
            cases hr
            rfl
          · simp
          · simp

/-- C21 as amended, at concrete inputs: with the example resource manager, a
known asset, a rejected one, a null hash and an expired resource. -/
theorem hashLookupCallback_reports_outcome_witness :
    (∀ r, exampleEnv.addDependency r = none) ∧ (∀ b, exampleEnv.parsed b = none) ∧
    GraphicsResourceName.hashLookupCallback exampleEnv (some ()) 0 (some 1) =
      { calls := [ResourceCall.addDependency 100, ResourceCall.parsed true]
        escaped := none } ∧
    GraphicsResourceName.hashLookupCallback exampleEnv (some ()) 0 (some 2) =
      { calls := [ResourceCall.parsed false], escaped := none } ∧
    GraphicsResourceName.hashLookupCallback exampleEnv (some ()) 0 none =
      { calls := [ResourceCall.parsed false], escaped := none } ∧
    GraphicsResourceName.hashLookupCallback exampleEnv (none : Option Unit) 0 (some 1) =
      { calls := [], escaped := none } :=
  have h1 := hashLookupCallback_reports_outcome exampleEnv (fun _ => rfl) (fun _ => rfl)
    (some ()) 0 (some 1)
  have h2 := hashLookupCallback_reports_outcome exampleEnv (fun _ => rfl) (fun _ => rfl)
    (some ()) 0 (some 2)
  have h3 := hashLookupCallback_reports_outcome exampleEnv (fun _ => rfl) (fun _ => rfl)
    (some ()) 0 none
  have h4 := hashLookupCallback_reports_outcome exampleEnv (fun _ => rfl) (fun _ => rfl)
    (none : Option Unit) 0 (some 1)
  ⟨fun _ => rfl, fun _ => rfl,
    h1.2.2.1 1 100 (fun h => Option.noConfusion h) rfl rfl,
    h2.2.2.2.1 2 (fun h => Option.noConfusion h) rfl rfl,
    h3.2.1 (fun h => Option.noConfusion h) rfl,
    h4.1 rfl⟩

/-- C21 fails when `getResourceAsset` raises an exception that is not a
`std::invalid_argument`: on a live resource and the hash of URI 3, `parsed` is
not called at all and the exception leaves the callback. -/
theorem hashLookupCallback_other_exception_counterexample :
    exampleEnv.getResourceAsset (exampleEnv.uri 3) 0 = Except.error (Exception.other 7) ∧
    GraphicsResourceName.hashLookupCallback exampleEnv (some ()) 0 (some 3) =
      { calls := [], escaped := some (Exception.other 7) } ∧
    (GraphicsResourceName.hashLookupCallback exampleEnv (some ()) 0 (some 3)).calls.countP
      ResourceCall.isParsed = 0 ∧
    (GraphicsResourceName.hashLookupCallback exampleEnv (some ()) 0 (some 3)).escaped ≠ none :=
  ⟨rfl, rfl, rfl, fun h => Option.noConfusion h⟩

end Meru
